import Mathlib

/-!
Verification of the word-timestamp-to-subtitle-chunk alignment engine of the
auto-youtube-shorts repository (functions `secondsToSRT`, `chunkSentence`,
`chunkText` of the main script).

Modelling conventions (shallow embedding of the JavaScript source):
* JS strings are modelled as `List Char` (the scripts only ever handle text
  where code units and characters coincide); `String.prototype.indexOf`
  with a fromIndex and `String.prototype.slice` are modelled by
  `indexOfFrom` / `jsSlice` / `jsSliceFrom` below, a failed `indexOf`
  (JS `-1`) becoming `none`.
* JS numbers carrying times (seconds) are modelled as `ℚ`; all time
  arithmetic performed by the source (`-`, `<`, `Math.floor`, `%`,
  `Math.round`) is exact on the decimal literals involved.
* Code paths that throw a `TypeError` at runtime (reading a property of
  `undefined`) are modelled as `none`: `chunkSentence` throws on an empty
  word list (`words[0].start`) and in its merge branch when no chunk has
  been emitted yet (`chunks[chunks.length - 1].text`).
-/

namespace Shorts

/-- The whitespace class of the JS regexp `\s` (and of `String.prototype.trim`):
space, the control whitespace characters, and the Unicode space separators. -/
def isWs (c : Char) : Bool :=
  c = ' ' || c = '\t' || c = '\n' || c = '\x0b' || c = '\x0c' || c = '\r' ||
  c = '\u00A0' || c = '\u1680' || ('\u2000' ≤ c && c ≤ '\u200A') ||
  c = '\u2028' || c = '\u2029' || c = '\u202F' || c = '\u205F' ||
  c = '\u3000' || c = '\uFEFF'

/-- The sentence delimiter class `[.!?]` of the split regexp in `chunkText`. -/
def isPunct (c : Char) : Bool :=
  c = '.' || c = '!' || c = '?'

/-- Helper for `indexOfFrom`: try candidate start positions `i, i+1, ...`
(`n` candidates in all) and return the first at which `pat` occurs. -/
def firstMatch (s pat : List Char) : Nat → Nat → Option Nat
  | _, 0 => none
  | i, n + 1 => if pat.isPrefixOf (s.drop i) then some i else firstMatch s pat (i + 1) n

/-- `s.indexOf(pat, start)` of JS, with `none` for `-1`: the least position
`≥ min start s.length` at which `pat` occurs as a substring of `s`. -/
def indexOfFrom (s pat : List Char) (start : Nat) : Option Nat :=
  firstMatch s pat (min start s.length) (s.length + 1 - min start s.length)

/-- `s.slice(a, b)` of JS for `0 ≤ a, b` (the source only calls it so). -/
def jsSlice (s : List Char) (a b : Nat) : List Char :=
  (s.take b).drop a

/-- `s.slice(a)` of JS for `0 ≤ a`. -/
def jsSliceFrom (s : List Char) (a : Nat) : List Char :=
  s.drop a

/-! ### Exact rational arithmetic

The `Rat` operations of the ambient library are `@[irreducible]`; the
embedding uses the following definitionally transparent versions (each
proved equal to the library operation), so that every theorem about a
concrete run can be checked by evaluation. -/

/-- Exact rational subtraction (kernel-computable). -/
def ratSub (a b : ℚ) : ℚ :=
  mkRat (a.num * b.den - b.num * a.den) (a.den * b.den)

/-- Exact rational addition (kernel-computable). -/
def ratAdd (a b : ℚ) : ℚ :=
  mkRat (a.num * b.den + b.num * a.den) (a.den * b.den)

/-- Exact rational multiplication (kernel-computable). -/
def ratMul (a b : ℚ) : ℚ :=
  mkRat (a.num * b.num) (a.den * b.den)

/-- One word of the transcription (`{word, start, end}` of the
`verbose_json` word-level timestamps). -/
structure Word where
  word : List Char
  start : ℚ
  «end» : ℚ
deriving DecidableEq, Repr

/-- One subtitle chunk (`{text, start, end}`) produced by `chunkSentence`. -/
structure Chunk where
  text : List Char
  start : ℚ
  «end» : ℚ
deriving DecidableEq, Repr

/-- The mutable locals of `chunkSentence`'s for-loop. -/
structure ChunkState where
  chunks : List Chunk
  chunkStartIndex : Nat
  chunkEndIndex : Nat
  chunkStartTime : ℚ
  chunkEndTime : ℚ
deriving DecidableEq, Repr

/-- The for-loop of `chunkSentence`: for each word look up
`sentence.indexOf(word, chunkEndIndex)`; on failure break (returning the
unconsumed words); on success either close the current chunk and restart it
at the match (when the would-be chunk exceeds 30 characters) or extend the
current chunk to the end of the match. -/
def chunkLoop (sentence : List Char) : List Word → ChunkState → ChunkState × List Word
  | [], st => (st, [])
  | w :: ws, st =>
    match indexOfFrom sentence w.word st.chunkEndIndex with
    | none => (st, w :: ws)
    | some index =>
      if ((index : Int) + w.word.length) - st.chunkStartIndex > 30 then
        chunkLoop sentence ws
          { chunks := st.chunks ++
              [⟨jsSlice sentence st.chunkStartIndex st.chunkEndIndex,
                st.chunkStartTime, st.chunkEndTime⟩],
            chunkStartIndex := index, chunkEndIndex := index,
            chunkStartTime := w.start, chunkEndTime := w.«end» }
      else
        chunkLoop sentence ws
          { st with chunkEndIndex := index + w.word.length, chunkEndTime := w.«end» }

/-- `chunkSentence(sentence, words)` of the source.  After the loop, the
final span (from `chunkStartIndex` to the end of the sentence) is either
merged into the text of the last emitted chunk (when its accumulated
duration is under 0.5 s) or pushed as a chunk of its own.  The two
`TypeError` paths of the JS code — `words[0].start` on an empty word list,
and `chunks[chunks.length - 1].text` when the merge branch runs with no
emitted chunk — are modelled as `none`. -/
def chunkSentence (sentence : List Char) (words : List Word) :
    Option (List Chunk × List Word) :=
  match words with
  | [] => none
  | w0 :: _ =>
    let r := chunkLoop sentence words ⟨[], 0, 0, w0.start, w0.start⟩
    let st := r.1
    if ratSub st.chunkEndTime st.chunkStartTime < mkRat 1 2 then
      match st.chunks.getLast? with
      | none => none
      | some c =>
        some (st.chunks.dropLast ++
          [{ c with text := c.text ++ ' ' :: jsSliceFrom sentence st.chunkStartIndex }],
          r.2)
    else
      some (st.chunks ++
        [⟨jsSliceFrom sentence st.chunkStartIndex, st.chunkStartTime, st.chunkEndTime⟩],
        r.2)

/-- One step of `text.split(/\s*[.!?]\s*/)`: if the string begins with
`\s*[.!?]`, consume that much and return the rest (the trailing `\s*` of the
delimiter is consumed by the caller), else `none`. -/
def dropWsThenPunct? : List Char → Option (List Char)
  | [] => none
  | c :: cs => if isPunct c then some cs else if isWs c then dropWsThenPunct? cs else none

/-- The scan of `text.split(/\s*[.!?]\s*/)`: accumulate the current token
(in reverse) until a delimiter match starts, then emit the token, consume
the delimiter (including its trailing whitespace) and continue.  The `fuel`
argument only makes the recursion structural (each step consumes at least
one character, so any fuel above the string length gives the same result —
`splitAux_fuel_irrelevant` below). -/
def splitAux (fuel : Nat) (s : List Char) (tok : List Char) : List (List Char) :=
  match fuel, s with
  | _, [] => [tok.reverse]
  | 0, _ => [tok.reverse]
  | fuel + 1, c :: cs =>
    match dropWsThenPunct? (c :: cs) with
    | some rest => tok.reverse :: splitAux fuel (rest.dropWhile isWs) []
    | none => splitAux fuel cs (c :: tok)

/-- `text.split(/\s*[.!?]\s*/).filter(s => s.trim() !== "")` of `chunkText`:
split on the delimiter runs, then keep only tokens containing a
non-whitespace character. -/
def splitSentences (text : List Char) : List (List Char) :=
  (splitAux text.length text []).filter (fun t => t.any (fun c => !(isWs c)))

/-- The reducer callback of `chunkText`: run `chunkSentence` on the next
sentence with the words remaining so far, append its chunks and thread its
remainder.  A thrown `TypeError` (`none`) aborts the whole reduce. -/
def chunkTextStep (acc : Option (List Chunk × List Word)) (sentence : List Char) :
    Option (List Chunk × List Word) :=
  match acc with
  | none => none
  | some (chunks, remainingWords) =>
    match chunkSentence sentence remainingWords with
    | none => none
    | some (cs, rem) => some (chunks ++ cs, rem)

/-- `chunkText(text, words)` of the source: reduce `chunkSentence` over the
sentences, threading the remaining words and concatenating the chunks. -/
def chunkText (text : List Char) (words : List Word) :
    Option (List Chunk × List Word) :=
  (splitSentences text).foldl chunkTextStep (some ([], words))

/-! ### Timestamp formatting (`secondsToSRT`) -/

/-- `Math.floor` on an exact rational. -/
def ratFloor (q : ℚ) : Int :=
  q.num.fdiv q.den

/-- JS truncation toward zero (the implicit division of the `%` operator). -/
def ratTrunc (q : ℚ) : Int :=
  if 0 ≤ q then ratFloor q else -ratFloor (-q)

/-- `Math.round`: round half toward positive infinity. -/
def jsRound (q : ℚ) : Int :=
  ratFloor (ratAdd q (mkRat 1 2))

def digitChar (n : Nat) : Char :=
  Char.ofNat (48 + n % 10)

def pad2 (n : Int) : List Char :=
  [digitChar (n.toNat / 10 % 10), digitChar (n.toNat % 10)]

def pad3 (n : Int) : List Char :=
  [digitChar (n.toNat / 100 % 10), digitChar (n.toNat / 10 % 10), digitChar (n.toNat % 10)]

/-- `secondsToSRT(seconds)` of the source.  The source builds
`new Date(1970, 0, 1, 0, 0, Math.floor(seconds), Math.round((seconds % 1) * 1000))`
— a Date from *host-local* calendar fields — and formats it with
`Intl.DateTimeFormat("de", { timeZone: "Europe/Berlin", hour/minute/second:
"2-digit", fractionalSecondDigits: 3 })`.  The embedding makes the host
dependence explicit: `hostOffsetMin` is the host timezone's offset east of
UTC in minutes (modelled as constant; JS applies the offset in effect at
that local time).  Europe/Berlin was CET (UTC+60 min, no DST) throughout
1970, and the German locale renders the time as `HH:MM:SS,mmm` — fractional
seconds follow a *comma*, the CLDR decimal separator for `de`. -/
def secondsToSRT (hostOffsetMin : Int) (seconds : ℚ) : List Char :=
  let s := ratFloor seconds
  let ms := jsRound (ratMul (ratSub seconds (mkRat (ratTrunc seconds) 1)) 1000)
  let epochLocalMs := s * 1000 + ms
  let epochMs := epochLocalMs - hostOffsetMin * 60000
  let berlinMs := epochMs + 60 * 60000
  pad2 ((berlinMs.fdiv 3600000).fmod 24) ++ ':' ::
  pad2 ((berlinMs.fdiv 60000).fmod 60) ++ ':' ::
  pad2 ((berlinMs.fdiv 1000).fmod 60) ++ ',' ::
  pad3 (berlinMs.fmod 1000)

/-! ### Ghost-instrumented chunking

`chunkLoopI`/`chunkSentenceI`/`chunkTextI` are the same algorithms as
`chunkLoop`/`chunkSentence`/`chunkText`, additionally recording for every
chunk the list of consumed words that contributed to it, each with the
position at which `indexOf` bound it in the sentence, and whether the chunk
was rewritten by the final-span merge.  The erasure lemmas below prove that
forgetting the ghost data recovers the plain functions. -/

/-- A chunk with ghost data: its contributing words (with match positions,
in consumption order) and whether the under-0.5 s merge rewrote it. -/
structure IChunk where
  chunk : Chunk
  contribs : List (Word × Nat)
  merged : Bool
deriving DecidableEq, Repr

/-- Instrumented loop state: `cur` holds the words consumed into the span
currently being accumulated. -/
structure IState where
  ichunks : List IChunk
  cur : List (Word × Nat)
  chunkStartIndex : Nat
  chunkEndIndex : Nat
  chunkStartTime : ℚ
  chunkEndTime : ℚ
deriving DecidableEq, Repr

/-- Forget the ghost data of an instrumented state. -/
def eraseI (st : IState) : ChunkState :=
  ⟨st.ichunks.map (·.chunk), st.chunkStartIndex, st.chunkEndIndex,
   st.chunkStartTime, st.chunkEndTime⟩

/-- `chunkLoop` with ghost bookkeeping. -/
def chunkLoopI (sentence : List Char) : List Word → IState → IState × List Word
  | [], st => (st, [])
  | w :: ws, st =>
    match indexOfFrom sentence w.word st.chunkEndIndex with
    | none => (st, w :: ws)
    | some index =>
      if ((index : Int) + w.word.length) - st.chunkStartIndex > 30 then
        chunkLoopI sentence ws
          { ichunks := st.ichunks ++
              [⟨⟨jsSlice sentence st.chunkStartIndex st.chunkEndIndex,
                 st.chunkStartTime, st.chunkEndTime⟩, st.cur, false⟩],
            cur := [(w, index)],
            chunkStartIndex := index, chunkEndIndex := index,
            chunkStartTime := w.start, chunkEndTime := w.«end» }
      else
        chunkLoopI sentence ws
          { st with cur := st.cur ++ [(w, index)],
                    chunkEndIndex := index + w.word.length, chunkEndTime := w.«end» }

/-- `chunkSentence` with ghost bookkeeping: the merge branch appends the
current span's contributors to the previous chunk and marks it `merged`. -/
def chunkSentenceI (sentence : List Char) (words : List Word) :
    Option (List IChunk × List Word) :=
  match words with
  | [] => none
  | w0 :: _ =>
    let r := chunkLoopI sentence words ⟨[], [], 0, 0, w0.start, w0.start⟩
    let st := r.1
    if ratSub st.chunkEndTime st.chunkStartTime < mkRat 1 2 then
      match st.ichunks.getLast? with
      | none => none
      | some c =>
        some (st.ichunks.dropLast ++
          [⟨{ c.chunk with
                text := c.chunk.text ++ ' ' :: jsSliceFrom sentence st.chunkStartIndex },
            c.contribs ++ st.cur, true⟩], r.2)
    else
      some (st.ichunks ++
        [⟨⟨jsSliceFrom sentence st.chunkStartIndex, st.chunkStartTime, st.chunkEndTime⟩,
          st.cur, false⟩], r.2)

/-- The reducer callback of `chunkTextI`. -/
def chunkTextStepI (acc : Option (List IChunk × List Word)) (sentence : List Char) :
    Option (List IChunk × List Word) :=
  match acc with
  | none => none
  | some (chunks, remainingWords) =>
    match chunkSentenceI sentence remainingWords with
    | none => none
    | some (cs, rem) => some (chunks ++ cs, rem)

/-- `chunkText` with ghost bookkeeping. -/
def chunkTextI (text : List Char) (words : List Word) :
    Option (List IChunk × List Word) :=
  (splitSentences text).foldl chunkTextStepI (some ([], words))

/-! ### Whitespace normalization

Comparing two texts "up to whitespace" is comparing their lists of maximal
non-whitespace runs. -/

/-- The maximal non-whitespace runs of a string, in order. -/
def tokenize : List Char → List (List Char)
  | [] => []
  | c :: cs =>
    if isWs c then tokenize cs
    else
      match cs, tokenize cs with
      | [], _ => [[c]]
      | d :: _, ts =>
        if isWs d then [c] :: ts
        else
          match ts with
          | [] => [[c]]
          | t :: ts => (c :: t) :: ts

/-- Concatenate cue texts with a single separating space. -/
def joinSpace : List (List Char) → List Char
  | [] => []
  | [s] => s
  | s :: rest => s ++ ' ' :: joinSpace rest

/-- Replace every sentence-delimiter character `[.!?]` by a space (the
delimiters are consumed by the sentence split and can never reappear in any
cue text). -/
def punctToSpace (s : List Char) : List Char :=
  s.map (fun c => if isPunct c then ' ' else c)

/-! ### Invariant predicates -/

/-- Bounds maintained by `chunkSentence`'s loop: the span cursors are
ordered and within the sentence, the current span is at most 30 characters
wide, and every emitted chunk text is at most 30 characters. -/
def LoopBounds (sentence : List Char) (st : ChunkState) : Prop :=
  st.chunkStartIndex ≤ st.chunkEndIndex ∧
  st.chunkEndIndex ≤ sentence.length ∧
  st.chunkEndIndex - st.chunkStartIndex ≤ 30 ∧
  ∀ c ∈ st.chunks, c.text.length ≤ 30

/-- Well-formed word sequence, as assumed by claim C5: each word has
`start ≤ end` and the words have non-decreasing start times. -/
def WordsOk (ws : List Word) : Prop :=
  (∀ w ∈ ws, w.start ≤ w.«end») ∧ ws.Chain' (fun a b => a.start ≤ b.start)

/-- Time-ordering invariant of `chunkSentence`'s loop, relative to the
start time `first` of the sentence's first input word: the current span's
time bounds are ordered, every emitted chunk has ordered bounds and starts
no later than the current span, emitted chunk starts are non-decreasing,
and the first emitted chunk (or, before any push, the current span) starts
exactly at `first`. -/
def TimeInv (first : ℚ) (st : ChunkState) : Prop :=
  st.chunkStartTime ≤ st.chunkEndTime ∧
  (∀ c ∈ st.chunks, c.start ≤ c.«end» ∧ c.start ≤ st.chunkStartTime) ∧
  st.chunks.Pairwise (fun a b => a.start ≤ b.start) ∧
  (st.chunks.head?.map Chunk.start = some first ∨
    (st.chunks = [] ∧ st.chunkStartTime = first))

/-- All consumed words of an instrumented loop state, with their match
positions, in consumption order: the contributors of the emitted chunks
followed by the current span's words. -/
def totalTrace (st : IState) : List (Word × Nat) :=
  (st.ichunks.map IChunk.contribs).join ++ st.cur

/-- Ghost invariant of the instrumented loop: no chunk is merged yet; every
emitted chunk with contributors starts at its first contributor's `start`
and ends at its last contributor's `end`; the current span does likewise;
before anything is consumed nothing has been emitted; and a (necessarily
first and contributor-less) chunk pushed before any word was consumed has
the current span's first word's start as its `start`. -/
def GhostInv (st : IState) : Prop :=
  (∀ ic ∈ st.ichunks, ic.merged = false ∧
    (ic.contribs.head?.map (fun p => p.1.start) = some ic.chunk.start ∨
      ic.contribs = []) ∧
    (ic.contribs.getLast?.map (fun p => p.1.«end») = some ic.chunk.«end» ∨
      ic.contribs = [])) ∧
  (st.cur.head?.map (fun p => p.1.start) = some st.chunkStartTime ∨ st.cur = []) ∧
  (st.cur.getLast?.map (fun p => p.1.«end») = some st.chunkEndTime ∨ st.cur = []) ∧
  (st.cur = [] → st.ichunks = [] ∧ st.chunkStartTime = st.chunkEndTime) ∧
  (∀ pre ic, st.ichunks = pre ++ [ic] → ic.contribs = [] →
    (st.cur.head?.map (fun p => p.1.start) = some ic.chunk.start ∨ st.cur = []))

/-- The consumption trace respects the forward-searching cursor: each word
is bound to the *nearest* occurrence of its text at or after the cursor
(`chunkEndIndex` at search time), after which the cursor advances to the
match end (extend branch) or resets to the match start (length-overflow
span break), exactly as in the source. -/
def BindsNearest (sentence : List Char) : Nat → Nat → List (Word × Nat) → Prop
  | _, _, [] => True
  | cei, csi, (w, idx) :: rest =>
    (min cei sentence.length ≤ idx ∧ idx ≤ sentence.length ∧
     w.word <+: sentence.drop idx ∧
     (∀ k, min cei sentence.length ≤ k → k < idx → ¬ w.word <+: sentence.drop k)) ∧
    (if ((idx : Int) + w.word.length) - csi > 30
     then BindsNearest sentence idx idx rest
     else BindsNearest sentence (idx + w.word.length) csi rest)

/-- Claim C3's per-cue property, as it actually holds: a cue with
contributing words starts at its first contributor's `start`, and — unless
the merge rewrote it — ends at its last contributor's `end`. -/
def ContribsOk (ic : IChunk) : Prop :=
  (ic.contribs.head?.map (fun p => p.1.start) = some ic.chunk.start ∨
    ic.contribs = []) ∧
  (ic.merged = false →
    (ic.contribs.getLast?.map (fun p => p.1.«end») = some ic.chunk.«end» ∨
      ic.contribs = []))

/-! ### Exact-alignment decomposition (claim C7) -/

/-- A transcript word text fit for exact re-alignment: non-empty and free
of whitespace and sentence punctuation. -/
def wordChars (w : List Char) : Prop :=
  w ≠ [] ∧ ∀ c ∈ w, isWs c = false ∧ isPunct c = false

/-- The sentence is exactly its words' texts in order, separated by
(possibly empty) whitespace-only gaps, with no leading or trailing slack. -/
def SentWords : List Char → List Word → Prop
  | _, [] => False
  | s, [w] => s = w.word ∧ wordChars w.word
  | s, w :: ws => wordChars w.word ∧
      ∃ sep rest, (∀ c ∈ sep, isWs c = true) ∧ s = w.word ++ sep ++ rest ∧
        SentWords rest ws

/-- The sentence's time span (first word's start to last word's end) lasts
at least 0.5 s, so its lone final span is pushed, not merged. -/
def MinDur : List Word → Prop
  | [] => False
  | w0 :: ws =>
    ¬ ratSub ((w0 :: ws).getLast (List.cons_ne_nil w0 ws)).«end» w0.start < mkRat 1 2

/-- A sentence fit for exact alignment: decomposes into its words, fits the
30-character span budget (so no span break occurs), lasts ≥ 0.5 s. -/
def GoodSent (s : List Char) (ws : List Word) : Prop :=
  SentWords s ws ∧ s.length ≤ 30 ∧ MinDur ws

/-- One sentence delimiter as matched by the split regexp: whitespace, one
of `[.!?]`, whitespace. -/
def DelimOk (d : List Char) : Prop :=
  ∃ a p b, (∀ c ∈ a, isWs c = true) ∧ isPunct p = true ∧
    (∀ c ∈ b, isWs c = true) ∧ d = a ++ p :: b

/-- The narration decomposes into good sentences joined by single
delimiters, the last optionally followed by one trailing delimiter. -/
def GoodText : List Char → List (List Char × List Word) → Prop
  | t, [] => t = []
  | t, [(s, ws)] => GoodSent s ws ∧ (t = s ∨ ∃ d, DelimOk d ∧ t = s ++ d)
  | t, (s, ws) :: rest => GoodSent s ws ∧
      ∃ d t', DelimOk d ∧ t = s ++ d ++ t' ∧ GoodText t' rest

/-! ## Library lemmas about the embedding -/

theorem ratSub_eq (a b : ℚ) : ratSub a b = a - b := by
  unfold ratSub
  rw [Rat.mkRat_eq_div, Rat.sub_def, Rat.normalize_eq_mkRat, Rat.mkRat_eq_div]

theorem ratAdd_eq (a b : ℚ) : ratAdd a b = a + b := by
  unfold ratAdd
  rw [Rat.mkRat_eq_div, Rat.add_def, Rat.normalize_eq_mkRat, Rat.mkRat_eq_div]

theorem ratMul_eq (a b : ℚ) : ratMul a b = a * b := by
  unfold ratMul
  rw [Rat.mkRat_eq_div, Rat.mul_def, Rat.normalize_eq_mkRat, Rat.mkRat_eq_div]

/-! ### Characterization of `indexOfFrom` -/

theorem firstMatch_some {s pat : List Char} :
    ∀ {n i j : Nat}, firstMatch s pat i n = some j →
      i ≤ j ∧ j < i + n ∧ pat <+: s.drop j ∧
        ∀ k, i ≤ k → k < j → ¬ pat <+: s.drop k := by
  intro n
  induction n with
  | zero => intro i j h; simp [firstMatch] at h
  | succ n ih =>
    intro i j h
    simp only [firstMatch] at h
    by_cases hp : pat.isPrefixOf (s.drop i)
    · rw [if_pos hp] at h
      cases h
      refine ⟨le_refl _, by omega, ?_, ?_⟩
      · exact List.isPrefixOf_iff_prefix.mp hp
      · intro k h1 h2; omega
    · rw [if_neg hp] at h
      obtain ⟨h1, h2, h3, h4⟩ := ih h
      refine ⟨by omega, by omega, h3, ?_⟩
      intro k hk1 hk2
      rcases Nat.eq_or_lt_of_le hk1 with rfl | hk1'
      · intro hc; exact hp (List.isPrefixOf_iff_prefix.mpr hc)
      · exact h4 k hk1' hk2

theorem firstMatch_none {s pat : List Char} :
    ∀ {n i : Nat}, firstMatch s pat i n = none →
      ∀ k, i ≤ k → k < i + n → ¬ pat <+: s.drop k := by
  intro n
  induction n with
  | zero => intro i _ k h1 h2; omega
  | succ n ih =>
    intro i h k hk1 hk2
    simp only [firstMatch] at h
    by_cases hp : pat.isPrefixOf (s.drop i)
    · rw [if_pos hp] at h; cases h
    · rw [if_neg hp] at h
      rcases Nat.eq_or_lt_of_le hk1 with rfl | hk1'
      · intro hc; exact hp (List.isPrefixOf_iff_prefix.mpr hc)
      · exact ih h k hk1' (by omega)

theorem firstMatch_some_of {s pat : List Char} :
    ∀ {n i j : Nat}, i ≤ j → j < i + n → pat <+: s.drop j →
      (∀ k, i ≤ k → k < j → ¬ pat <+: s.drop k) →
      firstMatch s pat i n = some j := by
  intro n
  induction n with
  | zero => intro i j h1 h2; omega
  | succ n ih =>
    intro i j h1 h2 h3 h4
    simp only [firstMatch]
    rcases Nat.eq_or_lt_of_le h1 with rfl | h1'
    · rw [if_pos (List.isPrefixOf_iff_prefix.mpr h3)]
    · rw [if_neg (fun hp => h4 i (le_refl i) h1' (List.isPrefixOf_iff_prefix.mp hp))]
      exact ih h1' (by omega) h3 (fun k hk1 hk2 => h4 k (by omega) hk2)

/-- An occurrence reported by `indexOfFrom` lies between the (clamped)
start position and the string length, the pattern occurs there, and at no
earlier position at or after the start. -/
theorem indexOfFrom_some {s pat : List Char} {start j : Nat}
    (h : indexOfFrom s pat start = some j) :
    min start s.length ≤ j ∧ j ≤ s.length ∧ pat <+: s.drop j ∧
      ∀ k, min start s.length ≤ k → k < j → ¬ pat <+: s.drop k := by
  obtain ⟨h1, h2, h3, h4⟩ := firstMatch_some h
  have hm : min start s.length ≤ s.length := Nat.min_le_right _ _
  exact ⟨h1, by omega, h3, h4⟩

/-- A failed `indexOf`: the pattern occurs nowhere at or after the
(clamped) start position. -/
theorem indexOfFrom_none {s pat : List Char} {start : Nat}
    (h : indexOfFrom s pat start = none) :
    ∀ k, min start s.length ≤ k → ¬ pat <+: s.drop k := by
  intro k hk
  by_cases hkl : k ≤ s.length
  · have hm : min start s.length ≤ s.length := Nat.min_le_right _ _
    exact firstMatch_none h k hk (by omega)
  · intro hc
    have : s.drop k = [] := List.drop_eq_nil_of_le (by omega)
    rw [this] at hc
    have hpe : pat = [] := List.prefix_nil.mp hc
    have : s.length ∈ Set.Ico (min start s.length) (s.length + 1) := by
      constructor
      · exact Nat.min_le_right _ _
      · omega
    exact firstMatch_none h s.length (Nat.min_le_right _ _) (by omega)
      (by rw [hpe]; exact List.nil_prefix)

theorem indexOfFrom_some_of {s pat : List Char} {start j : Nat}
    (h1 : min start s.length ≤ j) (h2 : j ≤ s.length) (h3 : pat <+: s.drop j)
    (h4 : ∀ k, min start s.length ≤ k → k < j → ¬ pat <+: s.drop k) :
    indexOfFrom s pat start = some j := by
  have hm : min start s.length ≤ s.length := Nat.min_le_right _ _
  exact firstMatch_some_of h1 (by omega) h3 h4

/-- An occurrence of the pattern fits inside the string. -/
theorem prefix_drop_length {s pat : List Char} {j : Nat} (h : pat <+: s.drop j)
    (hj : j ≤ s.length) : j + pat.length ≤ s.length := by
  have := h.length_le
  rw [List.length_drop] at this
  omega

theorem dropWhile_length_le (p : Char → Bool) (l : List Char) :
    (l.dropWhile p).length ≤ l.length := by
  induction l with
  | nil => simp [List.dropWhile]
  | cons c cs ih =>
    simp only [List.dropWhile]
    by_cases h : p c
    · simp only [h]; simp; omega
    · simp [h]

theorem dropWsThenPunct?_length {s r : List Char} (h : dropWsThenPunct? s = some r) :
    r.length < s.length := by
  induction s with
  | nil => simp [dropWsThenPunct?] at h
  | cons c cs ih =>
    simp only [dropWsThenPunct?] at h
    by_cases hp : isPunct c
    · simp only [hp, if_pos] at h
      simp only [Option.some.injEq] at h
      simp [← h]
    · by_cases hw : isWs c
      · simp [hp, hw] at h
        have := ih h
        simp [List.length_cons]; omega
      · simp [hp, hw] at h

theorem splitAux_fuel_irrelevant :
    ∀ (n m : Nat) (s tok : List Char), s.length ≤ n → s.length ≤ m →
      splitAux n s tok = splitAux m s tok := by
  intro n
  induction n using Nat.strong_induction_on with
  | _ n ih =>
    intro m s tok hn hm
    match s with
    | [] =>
      cases n <;> cases m <;> rfl
    | c :: cs =>
      match n, m with
      | n + 1, m + 1 =>
        simp only [splitAux]
        cases hd : dropWsThenPunct? (c :: cs) with
        | none =>
          simp only []
          exact ih n (by omega) m cs (c :: tok)
            (by simp at hn; omega) (by simp at hm; omega)
        | some rest =>
          simp only []
          have h1 := dropWsThenPunct?_length hd
          have h2 := dropWhile_length_le isWs rest
          simp only [List.length_cons] at h1
          rw [ih n (by omega) m (rest.dropWhile isWs) []
            (by simp at hn; omega) (by simp at hm; omega)]

theorem chunkLoopI_erase (sentence : List Char) :
    ∀ (ws : List Word) (st : IState),
      chunkLoop sentence ws (eraseI st) =
        (eraseI (chunkLoopI sentence ws st).1, (chunkLoopI sentence ws st).2) := by
  intro ws
  induction ws with
  | nil => intro st; simp [chunkLoop, chunkLoopI]
  | cons w ws ih =>
    intro st
    cases hidx : indexOfFrom sentence w.word st.chunkEndIndex with
    | none => simp [chunkLoop, chunkLoopI, eraseI, hidx]
    | some index =>
      by_cases hb : ((index : Int) + w.word.length) - st.chunkStartIndex > 30
      · have key := ih
          ⟨st.ichunks ++
             [⟨⟨jsSlice sentence st.chunkStartIndex st.chunkEndIndex,
                st.chunkStartTime, st.chunkEndTime⟩, st.cur, false⟩],
           [(w, index)], index, index, w.start, w.«end»⟩
        simp only [eraseI, List.map_append, List.map_cons, List.map_nil] at key
        simp only [chunkLoop, chunkLoopI, eraseI, hidx, hb, if_true, if_pos]
        exact key
      · have key := ih
          ⟨st.ichunks, st.cur ++ [(w, index)], st.chunkStartIndex,
           index + w.word.length, st.chunkStartTime, w.«end»⟩
        simp only [eraseI] at key
        simp only [chunkLoop, chunkLoopI, eraseI, hidx, hb, if_false, if_neg, not_false_iff]
        exact key

theorem chunkSentenceI_erase (sentence : List Char) (words : List Word) :
    chunkSentence sentence words =
      (chunkSentenceI sentence words).map (fun p => (p.1.map (·.chunk), p.2)) := by
  cases words with
  | nil => simp [chunkSentence, chunkSentenceI]
  | cons w0 ws =>
    simp only [chunkSentence, chunkSentenceI]
    have he := chunkLoopI_erase sentence (w0 :: ws) ⟨[], [], 0, 0, w0.start, w0.start⟩
    have h0 : eraseI ⟨[], [], 0, 0, w0.start, w0.start⟩ = ⟨[], 0, 0, w0.start, w0.start⟩ := by
      simp [eraseI]
    rw [h0] at he
    rw [he]
    set st := (chunkLoopI sentence (w0 :: ws) ⟨[], [], 0, 0, w0.start, w0.start⟩).1 with hst
    simp only [eraseI]
    by_cases hm : ratSub st.chunkEndTime st.chunkStartTime < mkRat 1 2
    · simp only [hm, if_pos]
      cases hgl : st.ichunks.getLast? with
      | none =>
        have : st.ichunks = [] := by
          cases hi : st.ichunks with
          | nil => rfl
          | cons a l => rw [hi] at hgl; simp [List.getLast?_concat] at hgl
        simp [this]
      | some c =>
        have hne : st.ichunks ≠ [] := by
          intro hi; rw [hi] at hgl; simp at hgl
        have hgl2 : (st.ichunks.map (·.chunk)).getLast? = some c.chunk := by
          rw [List.getLast?_map]; rw [hgl]; rfl
        rw [hgl2]
        simp only [Option.map_some]
        congr 1
        ext1
        · simp only [List.map_append, List.map_cons, List.map_nil]
          rw [← List.map_dropLast]
        · rfl
    · simp only [hm, if_neg, not_false_iff]
      simp [List.map_append]

theorem chunkText_foldl_none (ss : List (List Char)) :
    ss.foldl chunkTextStep none = none := by
  induction ss with
  | nil => rfl
  | cons s ss ih => simpa [chunkTextStep] using ih

theorem chunkTextI_foldl_none (ss : List (List Char)) :
    ss.foldl chunkTextStepI none = none := by
  induction ss with
  | nil => rfl
  | cons s ss ih => simpa [chunkTextStepI] using ih

theorem chunkTextI_erase_aux (ss : List (List Char)) :
    ∀ (ics : List IChunk) (ws : List Word),
      ss.foldl chunkTextStep (some (ics.map (·.chunk), ws)) =
        (ss.foldl chunkTextStepI (some (ics, ws))).map
          (fun p => (p.1.map (·.chunk), p.2)) := by
  induction ss with
  | nil => intro ics ws; simp
  | cons s ss ih =>
    intro ics ws
    simp only [List.foldl_cons, chunkTextStep, chunkTextStepI]
    rw [chunkSentenceI_erase s ws]
    cases chunkSentenceI s ws with
    | none =>
      simp only [Option.map_none']
      rw [chunkText_foldl_none, chunkTextI_foldl_none]
      rfl
    | some p =>
      simp only [Option.map_some']
      have h2 : ics.map (·.chunk) ++ p.1.map (·.chunk) = (ics ++ p.1).map (·.chunk) := by
        rw [List.map_append]
      rw [h2]
      exact ih (ics ++ p.1) p.2

theorem chunkTextI_erase (text : List Char) (words : List Word) :
    chunkText text words =
      (chunkTextI text words).map (fun p => (p.1.map (·.chunk), p.2)) := by
  unfold chunkText chunkTextI
  have := chunkTextI_erase_aux (splitSentences text) [] words
  simpa using this

/-! ### Loop bound invariant (claim C4) -/

theorem chunkLoop_bounds (sentence : List Char) :
    ∀ (ws : List Word) (st : ChunkState), LoopBounds sentence st →
      LoopBounds sentence (chunkLoop sentence ws st).1 := by
  intro ws
  induction ws with
  | nil => intro st h; simpa [chunkLoop] using h
  | cons w ws ih =>
    intro st h
    obtain ⟨h1, h2, h3, h4⟩ := h
    cases hidx : indexOfFrom sentence w.word st.chunkEndIndex with
    | none => simpa [chunkLoop, hidx] using ⟨h1, h2, h3, h4⟩
    | some index =>
      obtain ⟨hi1, hi2, hi3, _⟩ := indexOfFrom_some hidx
      have hfit : index + w.word.length ≤ sentence.length := prefix_drop_length hi3 hi2
      have hge : st.chunkEndIndex ≤ index := by
        have : min st.chunkEndIndex sentence.length = st.chunkEndIndex :=
          Nat.min_eq_left h2
        omega
      by_cases hb : ((index : Int) + w.word.length) - st.chunkStartIndex > 30
      · simp only [chunkLoop, hidx, hb, if_true, if_pos]
        apply ih
        refine ⟨le_refl _, ?_, ?_, ?_⟩
        · show index ≤ sentence.length
          omega
        · show index - index ≤ 30
          omega
        · show ∀ c ∈ st.chunks ++
            [⟨jsSlice sentence st.chunkStartIndex st.chunkEndIndex,
              st.chunkStartTime, st.chunkEndTime⟩], c.text.length ≤ 30
          intro c hc
          rcases List.mem_append.mp hc with hc | hc
          · exact h4 c hc
          · rcases List.mem_singleton.mp hc with rfl
            simp only [jsSlice, List.length_drop, List.length_take]
            omega
      · simp only [chunkLoop, hidx, hb, if_false, if_neg, not_false_iff]
        apply ih
        refine ⟨?_, ?_, ?_, h4⟩
        · show st.chunkStartIndex ≤ index + w.word.length
          omega
        · show index + w.word.length ≤ sentence.length
          omega
        · show index + w.word.length - st.chunkStartIndex ≤ 30
          omega

/-- **C4, amended.**  Within each sentence, every chunk except the last is
emitted by the length-overflow branch and never exceeds 30 characters; the
sentence's final chunk (the final span, possibly rewritten by the merge)
may be arbitrarily long, because it runs to the end of the sentence text. -/
theorem C4_amended_all_but_last_cue_short (sentence : List Char)
    (words : List Word) (cs : List Chunk) (rem : List Word)
    (h : chunkSentence sentence words = some (cs, rem)) :
    ∀ c ∈ cs.dropLast, c.text.length ≤ 30 := by
  cases words with
  | nil => simp [chunkSentence] at h
  | cons w0 ws =>
    have hbounds := chunkLoop_bounds sentence (w0 :: ws)
      ⟨[], 0, 0, w0.start, w0.start⟩
      ⟨le_refl _, Nat.zero_le _, by show (0 : Nat) - 0 ≤ 30; omega,
       by intro c hc; simp at hc⟩
    simp only [chunkSentence] at h
    set st := (chunkLoop sentence (w0 :: ws) ⟨[], 0, 0, w0.start, w0.start⟩).1 with hst
    obtain ⟨-, -, -, h4⟩ := hbounds
    by_cases hm : ratSub st.chunkEndTime st.chunkStartTime < mkRat 1 2
    · rw [if_pos hm] at h
      cases hgl : st.chunks.getLast? with
      | none => rw [hgl] at h; cases h
      | some c =>
        rw [hgl] at h
        have hcs : cs = st.chunks.dropLast ++
            [{ c with text := c.text ++ ' ' :: jsSliceFrom sentence st.chunkStartIndex }] := by
          cases h; rfl
        rw [hcs, List.dropLast_concat]
        intro d hd
        exact h4 d ((List.dropLast_sublist st.chunks).subset hd)
    · rw [if_neg hm] at h
      have hcs : cs = st.chunks ++
          [⟨jsSliceFrom sentence st.chunkStartIndex, st.chunkStartTime, st.chunkEndTime⟩] := by
        cases h; rfl
      rw [hcs, List.dropLast_concat]
      exact h4

/-- Witness for `C4_amended_all_but_last_cue_short` at a concrete run that
emits two chunks: the non-final chunk of that run obeys the 30-character
bound. -/
theorem C4_amended_witness :
    chunkSentence "cccccccccccccccccccccccccccccaa aa".toList
        [⟨"aa".toList, 0, mkRat 3 10⟩, ⟨"aa".toList, mkRat 3 10, mkRat 3 5⟩] =
      some ([⟨[], 0, 0⟩, ⟨"aa aa".toList, 0, mkRat 3 5⟩], []) ∧
    (⟨[], 0, 0⟩ : Chunk).text.length ≤ 30 :=
  ⟨by decide,
   C4_amended_all_but_last_cue_short "cccccccccccccccccccccccccccccaa aa".toList
     [⟨"aa".toList, 0, mkRat 3 10⟩, ⟨"aa".toList, mkRat 3 10, mkRat 3 5⟩]
     [⟨[], 0, 0⟩, ⟨"aa aa".toList, 0, mkRat 3 5⟩] [] (by decide)
     ⟨[], 0, 0⟩ (by decide)⟩

/-! ### Remainder handling (claim C6) -/

/-- The loop returns as remainder exactly the suffix of its input word list
from the first unconsumed word; when that remainder is non-empty, its head
is precisely a word whose text was not found at or after the final search
cursor. -/
theorem chunkLoop_remainder (sentence : List Char) :
    ∀ (ws : List Word) (st : ChunkState),
      (∃ n, (chunkLoop sentence ws st).2 = ws.drop n) ∧
      (∀ w ws', (chunkLoop sentence ws st).2 = w :: ws' →
        indexOfFrom sentence w.word (chunkLoop sentence ws st).1.chunkEndIndex = none) := by
  intro ws
  induction ws with
  | nil =>
    intro st
    refine ⟨⟨0, rfl⟩, ?_⟩
    intro w ws' h
    simp [chunkLoop] at h
  | cons w ws ih =>
    intro st
    cases hidx : indexOfFrom sentence w.word st.chunkEndIndex with
    | none =>
      refine ⟨⟨0, by simp [chunkLoop, hidx]⟩, ?_⟩
      intro w' ws' h
      simp only [chunkLoop, hidx] at h ⊢
      cases h
      exact hidx
    | some index =>
      by_cases hb : ((index : Int) + w.word.length) - st.chunkStartIndex > 30
      · have key := ih ⟨st.chunks ++
            [⟨jsSlice sentence st.chunkStartIndex st.chunkEndIndex,
              st.chunkStartTime, st.chunkEndTime⟩], index, index, w.start, w.«end»⟩
        obtain ⟨⟨n, hn⟩, hhead⟩ := key
        constructor
        · refine ⟨n + 1, ?_⟩
          simp only [chunkLoop, hidx, hb, if_true, if_pos]
          simpa using hn
        · intro w' ws' h
          simp only [chunkLoop, hidx, hb, if_true, if_pos] at h ⊢
          exact hhead w' ws' h
      · have key := ih ⟨st.chunks, st.chunkStartIndex, index + w.word.length,
            st.chunkStartTime, w.«end»⟩
        obtain ⟨⟨n, hn⟩, hhead⟩ := key
        constructor
        · refine ⟨n + 1, ?_⟩
          simp only [chunkLoop, hidx, hb, if_false, if_neg, not_false_iff]
          simpa using hn
        · intro w' ws' h
          simp only [chunkLoop, hidx, hb, if_false, if_neg, not_false_iff] at h ⊢
          exact hhead w' ws' h

/-- **C6, confirmed.**  Whenever `chunkSentence` returns, the returned
remainder is the contiguous suffix of the input word sequence starting at
the first unconsumed word, and when a word's text was not found the
consumption stopped right there: the unmatched word heads the remainder
(its text has no occurrence at or after the loop's final cursor). -/
theorem C6_remainder_is_suffix (sentence : List Char) (w0 : Word) (ws : List Word)
    (cs : List Chunk) (rem : List Word)
    (h : chunkSentence sentence (w0 :: ws) = some (cs, rem)) :
    (∃ n, rem = (w0 :: ws).drop n) ∧
    (∀ w ws', rem = w :: ws' →
      indexOfFrom sentence w.word
        (chunkLoop sentence (w0 :: ws) ⟨[], 0, 0, w0.start, w0.start⟩).1.chunkEndIndex
        = none) := by
  have key := chunkLoop_remainder sentence (w0 :: ws) ⟨[], 0, 0, w0.start, w0.start⟩
  have hrem : rem = (chunkLoop sentence (w0 :: ws) ⟨[], 0, 0, w0.start, w0.start⟩).2 := by
    simp only [chunkSentence] at h
    by_cases hm : ratSub (chunkLoop sentence (w0 :: ws)
        ⟨[], 0, 0, w0.start, w0.start⟩).1.chunkEndTime
        (chunkLoop sentence (w0 :: ws) ⟨[], 0, 0, w0.start, w0.start⟩).1.chunkStartTime <
        mkRat 1 2
    · rw [if_pos hm] at h
      cases hgl : (chunkLoop sentence (w0 :: ws)
          ⟨[], 0, 0, w0.start, w0.start⟩).1.chunks.getLast? with
      | none => rw [hgl] at h; cases h
      | some c => rw [hgl] at h; cases h; rfl
    · rw [if_neg hm] at h; cases h; rfl
  rw [hrem]
  exact key

/-- Witness for `C6_remainder_is_suffix`: the first sentence of the C9
scenario consumes `Hello` and `world` and hands `Goodbye`, `now` back. -/
theorem C6_witness :
    (∃ n, ([⟨"Goodbye".toList, 1, mkRat 8 5⟩, ⟨"now".toList, mkRat 8 5, mkRat 19 10⟩]
        : List Word) =
      ([⟨"Hello".toList, 0, mkRat 2 5⟩, ⟨"world".toList, mkRat 2 5, mkRat 9 10⟩,
        ⟨"Goodbye".toList, 1, mkRat 8 5⟩, ⟨"now".toList, mkRat 8 5, mkRat 19 10⟩]
        : List Word).drop n) ∧
    (∀ w ws', ([⟨"Goodbye".toList, 1, mkRat 8 5⟩, ⟨"now".toList, mkRat 8 5, mkRat 19 10⟩]
        : List Word) = w :: ws' →
      indexOfFrom "Hello world".toList w.word
        (chunkLoop "Hello world".toList
          [⟨"Hello".toList, 0, mkRat 2 5⟩, ⟨"world".toList, mkRat 2 5, mkRat 9 10⟩,
           ⟨"Goodbye".toList, 1, mkRat 8 5⟩, ⟨"now".toList, mkRat 8 5, mkRat 19 10⟩]
          ⟨[], 0, 0, 0, 0⟩).1.chunkEndIndex = none) :=
  C6_remainder_is_suffix "Hello world".toList
    ⟨"Hello".toList, 0, mkRat 2 5⟩
    [⟨"world".toList, mkRat 2 5, mkRat 9 10⟩,
     ⟨"Goodbye".toList, 1, mkRat 8 5⟩, ⟨"now".toList, mkRat 8 5, mkRat 19 10⟩]
    [⟨"Hello world".toList, 0, mkRat 9 10⟩]
    [⟨"Goodbye".toList, 1, mkRat 8 5⟩, ⟨"now".toList, mkRat 8 5, mkRat 19 10⟩]
    (by decide)

/-! ### Merge frame property (claim C10) -/

/-- **C10, confirmed.**  When the loop's final state has a sub-0.5 s
current span and at least one previously emitted chunk, `chunkSentence`
returns exactly the emitted chunk list with only the last chunk rewritten:
its `text` gains a space and the trailing sentence text, while its `start`
and `end` and every earlier chunk are untouched, and the remainder is the
loop's remainder. -/
theorem C10_merge_only_rewrites_last_text (sentence : List Char) (w0 : Word)
    (ws : List Word) (st : ChunkState) (rem : List Word)
    (cs0 : List Chunk) (c : Chunk)
    (hloop : chunkLoop sentence (w0 :: ws) ⟨[], 0, 0, w0.start, w0.start⟩ = (st, rem))
    (hshort : ratSub st.chunkEndTime st.chunkStartTime < mkRat 1 2)
    (hchunks : st.chunks = cs0 ++ [c]) :
    chunkSentence sentence (w0 :: ws) =
      some (cs0 ++ [⟨c.text ++ ' ' :: jsSliceFrom sentence st.chunkStartIndex,
                     c.start, c.«end»⟩], rem) := by
  simp only [chunkSentence, hloop, if_pos hshort]
  rw [hchunks, List.getLast?_concat]
  simp only [List.dropLast_concat]

/-- Witness for `C10_merge_only_rewrites_last_text` at the concrete merge
run of the 28-`A`s sentence. -/
theorem C10_witness :
    chunkSentence "AAAAAAAAAAAAAAAAAAAAAAAAAAAA BB".toList
      [⟨"AAAAAAAAAAAAAAAAAAAAAAAAAAAA".toList, 0, 1⟩, ⟨"BB".toList, 1, mkRat 6 5⟩] =
    some ([] ++ [⟨"AAAAAAAAAAAAAAAAAAAAAAAAAAAA".toList ++ ' ' ::
            jsSliceFrom "AAAAAAAAAAAAAAAAAAAAAAAAAAAA BB".toList 29, 0, 1⟩], []) :=
  C10_merge_only_rewrites_last_text "AAAAAAAAAAAAAAAAAAAAAAAAAAAA BB".toList
    ⟨"AAAAAAAAAAAAAAAAAAAAAAAAAAAA".toList, 0, 1⟩
    [⟨"BB".toList, 1, mkRat 6 5⟩]
    ⟨[⟨"AAAAAAAAAAAAAAAAAAAAAAAAAAAA".toList, 0, 1⟩], 29, 29, 1, mkRat 6 5⟩
    [] [] ⟨"AAAAAAAAAAAAAAAAAAAAAAAAAAAA".toList, 0, 1⟩
    (by decide) (by decide) rfl

/-! ### Time ordering (claim C5) -/

theorem words_chain'_pairwise {ws : List Word}
    (h : ws.Chain' (fun a b => a.start ≤ b.start)) :
    ws.Pairwise (fun a b => a.start ≤ b.start) := by
  haveI : IsTrans Word (fun a b : Word => a.start ≤ b.start) :=
    ⟨fun _ _ _ h1 h2 => le_trans h1 h2⟩
  exact List.chain'_iff_pairwise.mp h

/-- Whatever the branch taken after the loop, `chunkSentence`'s returned
remainder is the loop's remainder. -/
theorem chunkSentence_rem_eq (sentence : List Char) (w0 : Word) (ws : List Word)
    (cs : List Chunk) (rem : List Word)
    (h : chunkSentence sentence (w0 :: ws) = some (cs, rem)) :
    rem = (chunkLoop sentence (w0 :: ws) ⟨[], 0, 0, w0.start, w0.start⟩).2 := by
  simp only [chunkSentence] at h
  set st := (chunkLoop sentence (w0 :: ws) ⟨[], 0, 0, w0.start, w0.start⟩).1 with hst
  by_cases hm : ratSub st.chunkEndTime st.chunkStartTime < mkRat 1 2
  · rw [if_pos hm] at h
    cases hgl : st.chunks.getLast? with
    | none => rw [hgl] at h; cases h
    | some c => rw [hgl] at h; cases h; rfl
  · rw [if_neg hm] at h; cases h; rfl

/-- The remainder of a successful `chunkSentence` run is a subset of the
input words. -/
theorem chunkSentence_rem_subset (sentence : List Char) (words : List Word)
    (cs : List Chunk) (rem : List Word)
    (h : chunkSentence sentence words = some (cs, rem)) :
    ∀ w ∈ rem, w ∈ words := by
  cases words with
  | nil => simp [chunkSentence] at h
  | cons w0 ws =>
    have hrem := chunkSentence_rem_eq sentence w0 ws cs rem h
    obtain ⟨n, hn⟩ := (chunkLoop_remainder sentence (w0 :: ws)
      ⟨[], 0, 0, w0.start, w0.start⟩).1
    rw [hrem, hn]
    intro w hw
    exact List.drop_subset n _ hw

/-- The time-ordering loop invariant is preserved, and on exit the current
span still starts no later than any remaining word; the remaining words
stay well-ordered. -/
theorem chunkLoop_times (sentence : List Char) (first : ℚ) :
    ∀ (ws : List Word) (st : ChunkState),
      (∀ w ∈ ws, w.start ≤ w.«end») →
      ws.Pairwise (fun a b => a.start ≤ b.start) →
      (∀ w ∈ ws, st.chunkStartTime ≤ w.start) →
      TimeInv first st →
      TimeInv first (chunkLoop sentence ws st).1 ∧
      (∀ w ∈ (chunkLoop sentence ws st).2,
        (chunkLoop sentence ws st).1.chunkStartTime ≤ w.start) ∧
      (∀ w ∈ (chunkLoop sentence ws st).2, w.start ≤ w.«end») ∧
      (chunkLoop sentence ws st).2.Pairwise (fun a b => a.start ≤ b.start) := by
  intro ws
  induction ws with
  | nil =>
    intro st hse hpw hA hInv
    simp only [chunkLoop]
    exact ⟨hInv, by intro w hw; simp at hw, by intro w hw; simp at hw, List.Pairwise.nil⟩
  | cons w ws ih =>
    intro st hse hpw hA hInv
    obtain ⟨hB, hC, hD, hE⟩ := hInv
    have hA_w : st.chunkStartTime ≤ w.start := hA w (List.mem_cons_self w ws)
    have hw_se : w.start ≤ w.«end» := hse w (List.mem_cons_self w ws)
    obtain ⟨hw_ws, hpw'⟩ := List.pairwise_cons.mp hpw
    cases hidx : indexOfFrom sentence w.word st.chunkEndIndex with
    | none =>
      simp only [chunkLoop, hidx]
      exact ⟨⟨hB, hC, hD, hE⟩, hA, hse, hpw⟩
    | some index =>
      by_cases hb : ((index : Int) + w.word.length) - st.chunkStartIndex > 30
      · simp only [chunkLoop, hidx, hb, if_true, if_pos]
        apply ih
        · intro w' hw'; exact hse w' (List.mem_cons_of_mem w hw')
        · exact hpw'
        · intro w' hw'
          dsimp only
          exact hw_ws w' hw'
        · refine ⟨hw_se, ?_, ?_, ?_⟩
          · dsimp only
            intro c hc
            rcases List.mem_append.mp hc with hc | hc
            · exact ⟨(hC c hc).1, le_trans (hC c hc).2 hA_w⟩
            · rcases List.mem_singleton.mp hc with rfl
              exact ⟨hB, hA_w⟩
          · dsimp only
            rw [List.pairwise_append]
            refine ⟨hD, List.pairwise_singleton _ _, ?_⟩
            intro a ha b hb'
            rcases List.mem_singleton.mp hb' with rfl
            exact (hC a ha).2
          · dsimp only
            rcases hE with hE | ⟨hnil, hfst⟩
            · left
              cases hch : st.chunks with
              | nil => rw [hch] at hE; simp at hE
              | cons c0 cs0 =>
                rw [hch] at hE
                simp only [List.head?_cons, Option.map_some'] at hE
                simp only [hch, List.cons_append, List.head?_cons, Option.map_some']
                exact hE
            · left
              rw [hnil]
              simp only [List.nil_append, List.head?_cons, Option.map_some']
              rw [← hfst]
      · simp only [chunkLoop, hidx, hb, if_false, if_neg, not_false_iff]
        apply ih
        · intro w' hw'; exact hse w' (List.mem_cons_of_mem w hw')
        · exact hpw'
        · intro w' hw'
          dsimp only
          exact le_trans hA_w (hw_ws w' hw')
        · exact ⟨le_trans hA_w hw_se, hC, hD, hE⟩

/-- Per-sentence time ordering: on a successful run over well-ordered
words, all produced chunks have ordered time bounds, non-decreasing starts,
start no later than any remaining word, and the first chunk starts exactly
at the first input word's start; the remainder stays well-ordered. -/
theorem chunkSentence_times (sentence : List Char) (w0 : Word) (ws : List Word)
    (cs : List Chunk) (rem : List Word)
    (h : chunkSentence sentence (w0 :: ws) = some (cs, rem))
    (hse : ∀ w ∈ w0 :: ws, w.start ≤ w.«end»)
    (hpw : (w0 :: ws).Pairwise (fun a b => a.start ≤ b.start)) :
    (∀ c ∈ cs, c.start ≤ c.«end») ∧
    cs.Pairwise (fun a b => a.start ≤ b.start) ∧
    (∀ c ∈ cs, ∀ w ∈ rem, c.start ≤ w.start) ∧
    cs.head?.map Chunk.start = some w0.start ∧
    (∀ w ∈ rem, w.start ≤ w.«end») ∧
    rem.Pairwise (fun a b => a.start ≤ b.start) := by
  have hA0 : ∀ w ∈ w0 :: ws, (⟨[], 0, 0, w0.start, w0.start⟩ : ChunkState).chunkStartTime ≤ w.start := by
    intro w hw
    rcases List.mem_cons.mp hw with rfl | hw
    · exact le_refl _
    · exact (List.pairwise_cons.mp hpw).1 w hw
  have key := chunkLoop_times sentence w0.start (w0 :: ws)
    ⟨[], 0, 0, w0.start, w0.start⟩ hse hpw hA0
    ⟨le_refl _, by intro c hc; simp at hc, List.Pairwise.nil, Or.inr ⟨rfl, rfl⟩⟩
  obtain ⟨⟨hB, hC, hD, hE⟩, hA, hseR, hpwR⟩ := key
  have hrem := chunkSentence_rem_eq sentence w0 ws cs rem h
  simp only [chunkSentence] at h
  set st := (chunkLoop sentence (w0 :: ws) ⟨[], 0, 0, w0.start, w0.start⟩).1 with hst
  by_cases hm : ratSub st.chunkEndTime st.chunkStartTime < mkRat 1 2
  · rw [if_pos hm] at h
    cases hgl : st.chunks.getLast? with
    | none => rw [hgl] at h; cases h
    | some c =>
      rw [hgl] at h
      have hchunks : st.chunks.dropLast ++ [c] = st.chunks :=
        List.dropLast_append_getLast? c hgl
      have hcs : cs = st.chunks.dropLast ++
          [{ c with text := c.text ++ ' ' :: jsSliceFrom sentence st.chunkStartIndex }] := by
        cases h; rfl
      have hcmem : c ∈ st.chunks := by
        rw [← hchunks]; exact List.mem_append_right _ (List.mem_singleton_self c)
      have hDL : ∀ d ∈ st.chunks.dropLast, d ∈ st.chunks :=
        fun d hd => (List.dropLast_sublist st.chunks).subset hd
      refine ⟨?_, ?_, ?_, ?_, by rw [hrem]; exact hseR, by rw [hrem]; exact hpwR⟩
      · intro d hd
        rw [hcs] at hd
        rcases List.mem_append.mp hd with hd | hd
        · exact (hC d (hDL d hd)).1
        · rcases List.mem_singleton.mp hd with rfl
          exact (hC c hcmem).1
      · rw [hcs]
        rw [List.pairwise_append]
        have hpwchunks := hD
        rw [← hchunks, List.pairwise_append] at hpwchunks
        obtain ⟨hp1, -, hp3⟩ := hpwchunks
        refine ⟨hp1, List.pairwise_singleton _ _, ?_⟩
        intro a ha b hb'
        rcases List.mem_singleton.mp hb' with rfl
        exact hp3 a ha c (List.mem_singleton_self c)
      · intro d hd w hw
        rw [hrem] at hw
        rw [hcs] at hd
        rcases List.mem_append.mp hd with hd | hd
        · exact le_trans (hC d (hDL d hd)).2 (hA w hw)
        · rcases List.mem_singleton.mp hd with rfl
          exact le_trans (hC c hcmem).2 (hA w hw)
      · rw [hcs]
        cases hdl : st.chunks.dropLast with
        | nil =>
          have : st.chunks = [c] := by rw [← hchunks, hdl]; rfl
          rcases hE with hE | ⟨hnil, -⟩
          · rw [this] at hE
            simp only [List.head?_cons, Option.map_some'] at hE
            simp only [List.nil_append, List.head?_cons, Option.map_some']
            exact hE
          · rw [hnil] at this; cases this
        | cons d0 ds =>
          have : st.chunks = d0 :: (ds ++ [c]) := by
            rw [← hchunks, hdl]; rfl
          rcases hE with hE | ⟨hnil, -⟩
          · rw [this] at hE
            simp only [List.head?_cons, Option.map_some'] at hE
            simp only [List.cons_append, List.head?_cons, Option.map_some']
            exact hE
          · rw [hnil] at this; cases this
  · rw [if_neg hm] at h
    have hcs : cs = st.chunks ++
        [⟨jsSliceFrom sentence st.chunkStartIndex, st.chunkStartTime, st.chunkEndTime⟩] := by
      cases h; rfl
    refine ⟨?_, ?_, ?_, ?_, by rw [hrem]; exact hseR, by rw [hrem]; exact hpwR⟩
    · intro d hd
      rw [hcs] at hd
      rcases List.mem_append.mp hd with hd | hd
      · exact (hC d hd).1
      · rcases List.mem_singleton.mp hd with rfl
        exact hB
    · rw [hcs, List.pairwise_append]
      refine ⟨hD, List.pairwise_singleton _ _, ?_⟩
      intro a ha b hb'
      rcases List.mem_singleton.mp hb' with rfl
      exact (hC a ha).2
    · intro d hd w hw
      rw [hrem] at hw
      rw [hcs] at hd
      rcases List.mem_append.mp hd with hd | hd
      · exact le_trans (hC d hd).2 (hA w hw)
      · rcases List.mem_singleton.mp hd with rfl
        exact hA w hw
    · rw [hcs]
      rcases hE with hE | ⟨hnil, hfst⟩
      · cases hch : st.chunks with
        | nil => rw [hch] at hE; simp at hE
        | cons c0 cs0 =>
          rw [hch] at hE
          simp only [List.head?_cons, Option.map_some'] at hE
          simp only [hch, List.cons_append, List.head?_cons, Option.map_some']
          exact hE
      · rw [hnil]
        simp only [List.nil_append, List.head?_cons, Option.map_some']
        rw [← hfst]

/-- Every chunk of a sentence run starts no earlier than the first input
word (derived from the head equality and pairwise starts). -/
theorem chunkSentence_all_ge_head (cs : List Chunk) (q : ℚ)
    (hpw : cs.Pairwise (fun a b => a.start ≤ b.start))
    (hhd : cs.head?.map Chunk.start = some q) :
    ∀ c ∈ cs, q ≤ c.start := by
  cases cs with
  | nil => simp at hhd
  | cons c0 cs0 =>
    simp only [List.head?_cons, Option.map_some', Option.some.injEq] at hhd
    intro c hc
    rcases List.mem_cons.mp hc with rfl | hc
    · rw [hhd]
    · rw [← hhd]
      exact (List.pairwise_cons.mp hpw).1 c hc

/-- The fold of `chunkSentence` over the sentences preserves the C5
conclusions. -/
theorem chunkText_fold_times (ss : List (List Char)) :
    ∀ (acc : List Chunk) (ws : List Word) (cs : List Chunk) (rem : List Word),
      ss.foldl chunkTextStep (some (acc, ws)) = some (cs, rem) →
      (∀ w ∈ ws, w.start ≤ w.«end») →
      ws.Pairwise (fun a b => a.start ≤ b.start) →
      (∀ c ∈ acc, c.start ≤ c.«end») →
      acc.Pairwise (fun a b => a.start ≤ b.start) →
      (∀ c ∈ acc, ∀ w ∈ ws, c.start ≤ w.start) →
      (∀ c ∈ cs, c.start ≤ c.«end») ∧
      cs.Pairwise (fun a b => a.start ≤ b.start) := by
  induction ss with
  | nil =>
    intro acc ws cs rem h hse hpw hacc1 hacc2 hcross
    simp only [List.foldl_nil, Option.some.injEq, Prod.mk.injEq] at h
    obtain ⟨h1, h2⟩ := h
    subst h1
    exact ⟨hacc1, hacc2⟩
  | cons s ss ih =>
    intro acc ws cs rem h hse hpw hacc1 hacc2 hcross
    simp only [List.foldl_cons, chunkTextStep] at h
    cases hsent : chunkSentence s ws with
    | none =>
      rw [hsent] at h
      rw [chunkText_foldl_none] at h
      cases h
    | some p =>
      rw [hsent] at h
      obtain ⟨cs1, rem1⟩ := p
      cases ws with
      | nil => simp [chunkSentence] at hsent
      | cons w0 ws' =>
        have hst := chunkSentence_times s w0 ws' cs1 rem1 hsent hse hpw
        obtain ⟨hs1, hs2, hs3, hs4, hs5, hs6⟩ := hst
        have hge := chunkSentence_all_ge_head cs1 w0.start hs2 hs4
        have hsub := chunkSentence_rem_subset s (w0 :: ws') cs1 rem1 hsent
        apply ih (acc ++ cs1) rem1 cs rem h hs5 hs6
        · intro c hc
          rcases List.mem_append.mp hc with hc | hc
          · exact hacc1 c hc
          · exact hs1 c hc
        · rw [List.pairwise_append]
          refine ⟨hacc2, hs2, ?_⟩
          intro a ha b hb
          exact le_trans (hcross a ha w0 (List.mem_cons_self w0 ws')) (hge b hb)
        · intro c hc w hw
          rcases List.mem_append.mp hc with hc | hc
          · exact hcross c hc w (hsub w hw)
          · exact hs3 c hc w hw

/-- **C5, confirmed.**  For well-ordered words (per-word `start ≤ end`,
non-decreasing starts), every cue of a successful `chunkText` run has
`start ≤ end` and consecutive cues have non-decreasing starts. -/
theorem C5_cue_times_ordered (text : List Char) (words : List Word)
    (cs : List Chunk) (rem : List Word)
    (hok : WordsOk words)
    (h : chunkText text words = some (cs, rem)) :
    (∀ c ∈ cs, c.start ≤ c.«end») ∧
    cs.Chain' (fun a b => a.start ≤ b.start) := by
  obtain ⟨hse, hch⟩ := hok
  have key := chunkText_fold_times (splitSentences text) [] words cs rem h
    hse (words_chain'_pairwise hch)
    (by intro c hc; simp at hc) List.Pairwise.nil
    (by intro c hc; simp at hc)
  exact ⟨key.1, key.2.chain'⟩

/-- Witness for `C5_cue_times_ordered` on the C9 scenario input. -/
theorem C5_witness :
    (∀ c ∈ ([⟨"Hello world".toList, 0, mkRat 9 10⟩,
             ⟨"Goodbye now".toList, 1, mkRat 19 10⟩] : List Chunk),
       c.start ≤ c.«end») ∧
    ([⟨"Hello world".toList, 0, mkRat 9 10⟩,
      ⟨"Goodbye now".toList, 1, mkRat 19 10⟩] : List Chunk).Chain'
      (fun a b => a.start ≤ b.start) :=
  C5_cue_times_ordered "Hello world. Goodbye now.".toList
    [⟨"Hello".toList, 0, mkRat 2 5⟩, ⟨"world".toList, mkRat 2 5, mkRat 9 10⟩,
     ⟨"Goodbye".toList, 1, mkRat 8 5⟩, ⟨"now".toList, mkRat 8 5, mkRat 19 10⟩]
    [⟨"Hello world".toList, 0, mkRat 9 10⟩, ⟨"Goodbye now".toList, 1, mkRat 19 10⟩]
    []
    ⟨by decide, by
      refine List.Chain.cons (by decide) (List.Chain.cons (by decide)
        (List.Chain.cons (by decide) List.Chain.nil))⟩
    (by decide)

/-! ### Ghost invariant of the instrumented loop (claims C3, C8) -/

theorem chunkLoopI_ghost (sentence : List Char) :
    ∀ (ws : List Word) (st : IState),
      GhostInv st →
      (st.cur = [] → ∀ w0 ws0, ws = w0 :: ws0 → st.chunkStartTime = w0.start) →
      GhostInv (chunkLoopI sentence ws st).1 ∧
      ∃ n tr,
        (chunkLoopI sentence ws st).2 = ws.drop n ∧
        totalTrace (chunkLoopI sentence ws st).1 = totalTrace st ++ tr ∧
        tr.map Prod.fst = ws.take n ∧
        BindsNearest sentence st.chunkEndIndex st.chunkStartIndex tr := by
  intro ws
  induction ws with
  | nil =>
    intro st hG _
    simp only [chunkLoopI]
    exact ⟨hG, 0, [], rfl, by simp [totalTrace], rfl, trivial⟩
  | cons w ws ih =>
    intro st hG hcur0
    obtain ⟨hGa, hGb, hGc, hGd, hGe⟩ := hG
    cases hidx : indexOfFrom sentence w.word st.chunkEndIndex with
    | none =>
      simp only [chunkLoopI, hidx]
      exact ⟨⟨hGa, hGb, hGc, hGd, hGe⟩, 0, [], rfl, by simp [totalTrace], rfl, trivial⟩
    | some idx =>
      obtain ⟨hi1, hi2, hi3, hi4⟩ := indexOfFrom_some hidx
      by_cases hb : ((idx : Int) + w.word.length) - st.chunkStartIndex > 30
      · have hG2 : GhostInv ⟨st.ichunks ++
            [⟨⟨jsSlice sentence st.chunkStartIndex st.chunkEndIndex,
               st.chunkStartTime, st.chunkEndTime⟩, st.cur, false⟩],
            [(w, idx)], idx, idx, w.start, w.«end»⟩ := by
          refine ⟨?_, ?_, ?_, ?_, ?_⟩
          · dsimp only
            intro ic hic
            rcases List.mem_append.mp hic with hic | hic
            · exact hGa ic hic
            · rcases List.mem_singleton.mp hic with rfl
              exact ⟨rfl, hGb, hGc⟩
          · dsimp only
            exact Or.inl rfl
          · dsimp only
            exact Or.inl rfl
          · dsimp only
            intro hc
            simp at hc
          · dsimp only
            intro pre ic hpre hcontribs
            have hic : ic = ⟨⟨jsSlice sentence st.chunkStartIndex st.chunkEndIndex,
                st.chunkStartTime, st.chunkEndTime⟩, st.cur, false⟩ := by
              have := congrArg List.getLast? hpre
              simp only [List.getLast?_concat] at this
              exact (Option.some.injEq .. ▸ this).symm ▸ rfl
            left
            have hcur : st.cur = [] := by rw [hic] at hcontribs; exact hcontribs
            have hcst : st.chunkStartTime = w.start := hcur0 hcur w ws rfl
            rw [hic]
            simp only [List.head?_cons, Option.map_some']
            rw [← hcst]
        have key := ih ⟨st.ichunks ++
            [⟨⟨jsSlice sentence st.chunkStartIndex st.chunkEndIndex,
               st.chunkStartTime, st.chunkEndTime⟩, st.cur, false⟩],
            [(w, idx)], idx, idx, w.start, w.«end»⟩ hG2 (by intro hc; cases hc)
        obtain ⟨hG', n, tr, hrem, htot, hmap, hbind⟩ := key
        simp only [chunkLoopI, hidx, hb, if_true, if_pos]
        refine ⟨hG', n + 1, (w, idx) :: tr, hrem, ?_, ?_, ?_⟩
        · rw [htot]
          simp only [totalTrace]
          simp [List.append_assoc]
        · simp only [List.map_cons, hmap, List.take_succ_cons]
        · simp only [BindsNearest]
          rw [if_pos hb]
          exact ⟨⟨hi1, hi2, hi3, hi4⟩, hbind⟩
      · have hG2 : GhostInv ⟨st.ichunks, st.cur ++ [(w, idx)], st.chunkStartIndex,
            idx + w.word.length, st.chunkStartTime, w.«end»⟩ := by
          refine ⟨?_, ?_, ?_, ?_, ?_⟩
          · dsimp only
            exact hGa
          · dsimp only
            cases hcur : st.cur with
            | nil =>
              left
              have hcst : st.chunkStartTime = w.start := hcur0 hcur w ws rfl
              simp only [List.nil_append, List.head?_cons, Option.map_some']
              rw [← hcst]
            | cons p ps =>
              rcases hGb with hGb | hGb
              · left
                rw [hcur] at hGb
                simpa using hGb
              · rw [hcur] at hGb; cases hGb
          · dsimp only
            left
            simp only [List.getLast?_concat, Option.map_some']
          · dsimp only
            intro hc
            simp at hc
          · dsimp only
            intro pre ic hpre hcontribs
            rcases hGe pre ic hpre hcontribs with he | he
            · left
              cases hcur : st.cur with
              | nil => rw [hcur] at he; cases he
              | cons p ps =>
                rw [hcur] at he
                simpa using he
            · exfalso
              obtain ⟨hnil, -⟩ := hGd he
              rw [hpre] at hnil
              simp at hnil
        have key := ih ⟨st.ichunks, st.cur ++ [(w, idx)], st.chunkStartIndex,
            idx + w.word.length, st.chunkStartTime, w.«end»⟩ hG2
            (by intro hc; simp at hc)
        obtain ⟨hG', n, tr, hrem, htot, hmap, hbind⟩ := key
        simp only [chunkLoopI, hidx, hb, if_false, if_neg, not_false_iff]
        refine ⟨hG', n + 1, (w, idx) :: tr, hrem, ?_, ?_, ?_⟩
        · rw [htot]
          simp only [totalTrace, List.append_assoc, List.cons_append, List.nil_append]
        · simp only [List.map_cons, hmap, List.take_succ_cons]
        · simp only [BindsNearest]
          rw [if_neg hb]
          exact ⟨⟨hi1, hi2, hi3, hi4⟩, hbind⟩

theorem chunkSentenceI_ghost (sentence : List Char) (w0 : Word) (ws : List Word)
    (ics : List IChunk) (rem : List Word)
    (h : chunkSentenceI sentence (w0 :: ws) = some (ics, rem)) :
    (∃ n, ((ics.map IChunk.contribs).join).map Prod.fst = (w0 :: ws).take n ∧
          rem = (w0 :: ws).drop n) ∧
    (∀ ic ∈ ics, ContribsOk ic) ∧
    BindsNearest sentence 0 0 ((ics.map IChunk.contribs).join) := by
  have hG0 : GhostInv ⟨[], [], 0, 0, w0.start, w0.start⟩ := by
    refine ⟨?_, Or.inr rfl, Or.inr rfl, fun _ => ⟨rfl, rfl⟩, ?_⟩
    · intro ic hic; simp at hic
    · intro pre ic hpre
      exfalso
      have := congrArg List.length hpre
      simp at this
  have key := chunkLoopI_ghost sentence (w0 :: ws) ⟨[], [], 0, 0, w0.start, w0.start⟩
    hG0 (by intro _ w0' ws0' heq; cases heq; rfl)
  obtain ⟨hG', n, tr, hrem0, htot, hmap, hbind⟩ := key
  obtain ⟨hGa', hGb', hGc', hGd', hGe'⟩ := hG'
  have htot0 : totalTrace ⟨[], [], 0, 0, w0.start, w0.start⟩ = [] := by
    simp [totalTrace]
  rw [htot0, List.nil_append] at htot
  simp only [chunkSentenceI] at h
  set st := (chunkLoopI sentence (w0 :: ws) ⟨[], [], 0, 0, w0.start, w0.start⟩).1 with hst
  by_cases hm : ratSub st.chunkEndTime st.chunkStartTime < mkRat 1 2
  · rw [if_pos hm] at h
    cases hgl : st.ichunks.getLast? with
    | none => rw [hgl] at h; cases h
    | some c =>
      rw [hgl] at h
      have hchunks : st.ichunks.dropLast ++ [c] = st.ichunks :=
        List.dropLast_append_getLast? c hgl
      have hcs : ics = st.ichunks.dropLast ++
          [⟨{ c.chunk with
                text := c.chunk.text ++ ' ' :: jsSliceFrom sentence st.chunkStartIndex },
            c.contribs ++ st.cur, true⟩] ∧ rem = (chunkLoopI sentence (w0 :: ws)
            ⟨[], [], 0, 0, w0.start, w0.start⟩).2 := by
        cases h; exact ⟨rfl, rfl⟩
      obtain ⟨hcs, hrem⟩ := hcs
      have hjoin : (ics.map IChunk.contribs).join = totalTrace st := by
        rw [hcs]
        conv_rhs => rw [totalTrace, ← hchunks]
        simp [List.append_assoc]
      refine ⟨⟨n, ?_, ?_⟩, ?_, ?_⟩
      · rw [hjoin, htot, hmap]
      · rw [hrem, hrem0]
      · intro ic hic
        rw [hcs] at hic
        rcases List.mem_append.mp hic with hic | hic
        · have := hGa' ic ((List.dropLast_sublist st.ichunks).subset hic)
          exact ⟨this.2.1, fun _ => this.2.2⟩
        · rcases List.mem_singleton.mp hic with rfl
          constructor
          · cases hcc : c.contribs with
            | nil =>
              simp only [List.nil_append]
              rcases hGe' st.ichunks.dropLast c hchunks.symm hcc with he | he
              · exact Or.inl he
              · right
                rw [he]
            | cons q qs =>
              left
              have hcmem : c ∈ st.ichunks := by
                rw [← hchunks]
                exact List.mem_append_right _ (List.mem_singleton_self c)
              have hh2 := (hGa' c hcmem).2.1
              rcases hh2 with hh | hh
              · rw [hcc] at hh
                simp only [List.head?_cons, Option.map_some'] at hh ⊢
                simp only [List.cons_append, List.head?_cons, Option.map_some']
                exact hh
              · rw [hcc] at hh; cases hh
          · intro hmg
            cases hmg
      · rw [hjoin, htot]
        exact hbind
  · rw [if_neg hm] at h
    have hcs : ics = st.ichunks ++
        [⟨⟨jsSliceFrom sentence st.chunkStartIndex, st.chunkStartTime, st.chunkEndTime⟩,
          st.cur, false⟩] ∧ rem = (chunkLoopI sentence (w0 :: ws)
          ⟨[], [], 0, 0, w0.start, w0.start⟩).2 := by
      cases h; exact ⟨rfl, rfl⟩
    obtain ⟨hcs, hrem⟩ := hcs
    have hjoin : (ics.map IChunk.contribs).join = totalTrace st := by
      rw [hcs, totalTrace]
      simp [List.append_assoc]
    refine ⟨⟨n, ?_, ?_⟩, ?_, ?_⟩
    · rw [hjoin, htot, hmap]
    · rw [hrem, hrem0]
    · intro ic hic
      rw [hcs] at hic
      rcases List.mem_append.mp hic with hic | hic
      · have := hGa' ic hic
        exact ⟨this.2.1, fun _ => this.2.2⟩
      · rcases List.mem_singleton.mp hic with rfl
        exact ⟨hGb', fun _ => hGc'⟩
    · rw [hjoin, htot]
      exact hbind

theorem BindsNearest_mono (sentence : List Char) :
    ∀ (tr : List (Word × Nat)) (cei csi : Nat),
      BindsNearest sentence cei csi tr →
      (∀ p ∈ tr, min cei sentence.length ≤ p.2) ∧
      (tr.map Prod.snd).Chain' (· ≤ ·) := by
  intro tr
  induction tr with
  | nil =>
    intro cei csi _
    exact ⟨by intro p hp; simp at hp, by simp⟩
  | cons p tr ih =>
    intro cei csi hB
    obtain ⟨w, idx⟩ := p
    simp only [BindsNearest] at hB
    obtain ⟨⟨h1, h2, h3, h4⟩, hrest⟩ := hB
    have hnext : ∃ cursor, (BindsNearest sentence cursor csi tr ∨
        BindsNearest sentence cursor cursor tr) ∧ idx ≤ min cursor sentence.length := by
      by_cases hc : ((idx : Int) + w.word.length) - csi > 30
      · rw [if_pos hc] at hrest
        exact ⟨idx, Or.inr hrest, by omega⟩
      · rw [if_neg hc] at hrest
        refine ⟨idx + w.word.length, Or.inl hrest, ?_⟩
        have hfit := prefix_drop_length h3 h2
        omega
    obtain ⟨cursor, hrest', hcur⟩ := hnext
    have ihres : (∀ q ∈ tr, min cursor sentence.length ≤ q.2) ∧
        (tr.map Prod.snd).Chain' (· ≤ ·) := by
      rcases hrest' with hr | hr
      · exact ih cursor csi hr
      · exact ih cursor cursor hr
    refine ⟨?_, ?_⟩
    · intro q hq
      rcases List.mem_cons.mp hq with rfl | hq
      · exact h1
      · exact le_trans (le_trans h1 (le_trans (le_refl _) (by
          have := ihres.1 q hq
          omega))) (le_refl _)
    · rw [List.map_cons]
      rw [List.chain'_cons']
      refine ⟨?_, ihres.2⟩
      intro b hb
      cases tr with
      | nil => simp at hb
      | cons q qs =>
        simp only [List.map_cons, List.head?_cons, Option.mem_def,
          Option.some.injEq] at hb
        subst hb
        have := ihres.1 q (List.mem_cons_self q qs)
        omega

theorem chunkTextI_fold_ghost (ss : List (List Char)) :
    ∀ (acc : List IChunk) (words0 : List Word) (m : Nat) (ics : List IChunk)
      (rem : List Word),
      ss.foldl chunkTextStepI (some (acc, words0.drop m)) = some (ics, rem) →
      ((acc.map IChunk.contribs).join).map Prod.fst = words0.take m →
      (∀ ic ∈ acc, ContribsOk ic) →
      (∃ n, ((ics.map IChunk.contribs).join).map Prod.fst = words0.take n) ∧
      (∀ ic ∈ ics, ContribsOk ic) := by
  induction ss with
  | nil =>
    intro acc words0 m ics rem h hacc hok
    simp only [List.foldl_nil, Option.some.injEq, Prod.mk.injEq] at h
    obtain ⟨h1, h2⟩ := h
    subst h1
    exact ⟨⟨m, hacc⟩, hok⟩
  | cons s ss ih =>
    intro acc words0 m ics rem h hacc hok
    simp only [List.foldl_cons, chunkTextStepI] at h
    cases hsent : chunkSentenceI s (words0.drop m) with
    | none =>
      rw [hsent] at h
      rw [chunkTextI_foldl_none] at h
      cases h
    | some p =>
      rw [hsent] at h
      obtain ⟨cs1, rem1⟩ := p
      cases hws : words0.drop m with
      | nil => rw [hws] at hsent; simp [chunkSentenceI] at hsent
      | cons w0 ws' =>
        rw [hws] at hsent
        have key := chunkSentenceI_ghost s w0 ws' cs1 rem1 hsent
        obtain ⟨⟨k, hk1, hk2⟩, hContribs, -⟩ := key
        have hrem1 : rem1 = words0.drop (m + k) := by
          rw [hk2, ← hws, List.drop_drop]
          try rfl
          try (congr 1; omega)
        have hjoin : (((acc ++ cs1).map IChunk.contribs).join).map Prod.fst =
            words0.take (m + k) := by
          have h1 : (((acc ++ cs1).map IChunk.contribs).join).map Prod.fst =
              ((acc.map IChunk.contribs).join).map Prod.fst ++
              ((cs1.map IChunk.contribs).join).map Prod.fst := by
            simp
          rw [h1, hacc, hk1, ← hws, List.take_add]
        apply ih (acc ++ cs1) words0 (m + k) ics rem
        · rw [← hrem1]
          exact h
        · exact hjoin
        · intro ic hic
          rcases List.mem_append.mp hic with hic | hic
          · exact hok ic hic
          · exact hContribs ic hic

/-! ### Claim C3, amended -/

/-- **C3, amended.**  Every word is consumed at most once: the contributing
words of all cues, concatenated in cue order, form a prefix of the input
word sequence (so no word contributes to two cues).  Every cue with
contributing words starts at its first contributor's `start`; every cue
*not* rewritten by the short-final-span merge ends at its last
contributor's `end` (a merged cue keeps the pre-merge chunk's `end`, which
is the counterexample's point).  The first conjunct ties the instrumented
run to the plain `chunkText`. -/
theorem C3_amended_word_assignment (text : List Char) (words : List Word)
    (ics : List IChunk) (rem : List Word)
    (h : chunkTextI text words = some (ics, rem)) :
    chunkText text words = some (ics.map (·.chunk), rem) ∧
    (∃ n, ((ics.map IChunk.contribs).join).map Prod.fst = words.take n) ∧
    (∀ ic ∈ ics, ContribsOk ic) := by
  refine ⟨?_, ?_⟩
  · rw [chunkTextI_erase, h]
    rfl
  · have key := chunkTextI_fold_ghost (splitSentences text) [] words 0 ics rem
      (by simpa [chunkTextI] using h) (by simp) (by intro ic hic; simp at hic)
    exact key

/-- Witness for `C3_amended_word_assignment` on the C9 scenario input. -/
theorem C3_amended_witness :
    chunkText "Hello world. Goodbye now.".toList
      [⟨"Hello".toList, 0, mkRat 2 5⟩, ⟨"world".toList, mkRat 2 5, mkRat 9 10⟩,
       ⟨"Goodbye".toList, 1, mkRat 8 5⟩, ⟨"now".toList, mkRat 8 5, mkRat 19 10⟩] =
      some (([⟨⟨"Hello world".toList, 0, mkRat 9 10⟩,
               [(⟨"Hello".toList, 0, mkRat 2 5⟩, 0),
                (⟨"world".toList, mkRat 2 5, mkRat 9 10⟩, 6)], false⟩,
              ⟨⟨"Goodbye now".toList, 1, mkRat 19 10⟩,
               [(⟨"Goodbye".toList, 1, mkRat 8 5⟩, 0),
                (⟨"now".toList, mkRat 8 5, mkRat 19 10⟩, 8)], false⟩] :
            List IChunk).map (·.chunk), []) ∧
    (∃ n, ((([⟨⟨"Hello world".toList, 0, mkRat 9 10⟩,
               [(⟨"Hello".toList, 0, mkRat 2 5⟩, 0),
                (⟨"world".toList, mkRat 2 5, mkRat 9 10⟩, 6)], false⟩,
              ⟨⟨"Goodbye now".toList, 1, mkRat 19 10⟩,
               [(⟨"Goodbye".toList, 1, mkRat 8 5⟩, 0),
                (⟨"now".toList, mkRat 8 5, mkRat 19 10⟩, 8)], false⟩] :
            List IChunk).map IChunk.contribs).join).map Prod.fst =
      ([⟨"Hello".toList, 0, mkRat 2 5⟩, ⟨"world".toList, mkRat 2 5, mkRat 9 10⟩,
        ⟨"Goodbye".toList, 1, mkRat 8 5⟩,
        ⟨"now".toList, mkRat 8 5, mkRat 19 10⟩] : List Word).take n) ∧
    (∀ ic ∈ ([⟨⟨"Hello world".toList, 0, mkRat 9 10⟩,
               [(⟨"Hello".toList, 0, mkRat 2 5⟩, 0),
                (⟨"world".toList, mkRat 2 5, mkRat 9 10⟩, 6)], false⟩,
              ⟨⟨"Goodbye now".toList, 1, mkRat 19 10⟩,
               [(⟨"Goodbye".toList, 1, mkRat 8 5⟩, 0),
                (⟨"now".toList, mkRat 8 5, mkRat 19 10⟩, 8)], false⟩] :
            List IChunk), ContribsOk ic) :=
  C3_amended_word_assignment "Hello world. Goodbye now.".toList
    [⟨"Hello".toList, 0, mkRat 2 5⟩, ⟨"world".toList, mkRat 2 5, mkRat 9 10⟩,
     ⟨"Goodbye".toList, 1, mkRat 8 5⟩, ⟨"now".toList, mkRat 8 5, mkRat 19 10⟩]
    [⟨⟨"Hello world".toList, 0, mkRat 9 10⟩,
      [(⟨"Hello".toList, 0, mkRat 2 5⟩, 0),
       (⟨"world".toList, mkRat 2 5, mkRat 9 10⟩, 6)], false⟩,
     ⟨⟨"Goodbye now".toList, 1, mkRat 19 10⟩,
      [(⟨"Goodbye".toList, 1, mkRat 8 5⟩, 0),
       (⟨"now".toList, mkRat 8 5, mkRat 19 10⟩, 8)], false⟩]
    [] (by decide)

/-! ### Claim C8, amended -/

/-- **C8, amended.**  Each consumed word is bound to the *nearest*
occurrence of its text at or after the forward-searching cursor, and match
positions never decrease; however, after a length-overflow span break the
cursor resets to the match *start* (not its end), so the next word may
re-bind the same occurrence (the counterexample's point). -/
theorem C8_amended_nearest_binding (sentence : List Char) (w0 : Word)
    (ws : List Word) (ics : List IChunk) (rem : List Word)
    (h : chunkSentenceI sentence (w0 :: ws) = some (ics, rem)) :
    BindsNearest sentence 0 0 ((ics.map IChunk.contribs).join) ∧
    (((ics.map IChunk.contribs).join).map Prod.snd).Chain' (· ≤ ·) := by
  have key := chunkSentenceI_ghost sentence w0 ws ics rem h
  exact ⟨key.2.2, (BindsNearest_mono sentence _ 0 0 key.2.2).2⟩

/-- Witness for `C8_amended_nearest_binding` on the spec's duplicate-word
scenario sentence. -/
theorem C8_amended_witness :
    BindsNearest "the cat sat on the mat".toList 0 0
      ((([⟨⟨"the cat sat on the mat".toList, 0, mkRat 6 5⟩,
          [(⟨"the".toList, 0, mkRat 1 5⟩, 0), (⟨"cat".toList, mkRat 1 5, mkRat 2 5⟩, 4),
           (⟨"sat".toList, mkRat 2 5, mkRat 3 5⟩, 8), (⟨"on".toList, mkRat 3 5, mkRat 4 5⟩, 12),
           (⟨"the".toList, mkRat 4 5, 1⟩, 15), (⟨"mat".toList, 1, mkRat 6 5⟩, 19)],
          false⟩] : List IChunk).map IChunk.contribs).join) ∧
    (((([⟨⟨"the cat sat on the mat".toList, 0, mkRat 6 5⟩,
          [(⟨"the".toList, 0, mkRat 1 5⟩, 0), (⟨"cat".toList, mkRat 1 5, mkRat 2 5⟩, 4),
           (⟨"sat".toList, mkRat 2 5, mkRat 3 5⟩, 8), (⟨"on".toList, mkRat 3 5, mkRat 4 5⟩, 12),
           (⟨"the".toList, mkRat 4 5, 1⟩, 15), (⟨"mat".toList, 1, mkRat 6 5⟩, 19)],
          false⟩] : List IChunk).map IChunk.contribs).join).map Prod.snd).Chain'
      (· ≤ ·) :=
  C8_amended_nearest_binding "the cat sat on the mat".toList
    ⟨"the".toList, 0, mkRat 1 5⟩
    [⟨"cat".toList, mkRat 1 5, mkRat 2 5⟩, ⟨"sat".toList, mkRat 2 5, mkRat 3 5⟩,
     ⟨"on".toList, mkRat 3 5, mkRat 4 5⟩, ⟨"the".toList, mkRat 4 5, 1⟩,
     ⟨"mat".toList, 1, mkRat 6 5⟩]
    [⟨⟨"the cat sat on the mat".toList, 0, mkRat 6 5⟩,
      [(⟨"the".toList, 0, mkRat 1 5⟩, 0), (⟨"cat".toList, mkRat 1 5, mkRat 2 5⟩, 4),
       (⟨"sat".toList, mkRat 2 5, mkRat 3 5⟩, 8), (⟨"on".toList, mkRat 3 5, mkRat 4 5⟩, 12),
       (⟨"the".toList, mkRat 4 5, 1⟩, 15), (⟨"mat".toList, 1, mkRat 6 5⟩, 19)],
      false⟩]
    [] (by decide)

/-! ### Character-class and sentence-shape facts (claim C7) -/

theorem punct_not_ws {c : Char} (h : isPunct c = true) : isWs c = false := by
  simp only [isPunct, Bool.or_eq_true, decide_eq_true_eq, or_assoc] at h
  rcases h with h | h | h <;> subst h <;> decide

theorem ws_not_punct {c : Char} (h : isWs c = true) : isPunct c = false := by
  cases hp : isPunct c with
  | false => rfl
  | true => rw [punct_not_ws hp] at h; cases h

theorem sentWords_ne_nil {s : List Char} {ws : List Word} (h : SentWords s ws) :
    ws ≠ [] := by
  cases ws with
  | nil => simp [SentWords] at h
  | cons w ws => exact List.cons_ne_nil w ws

theorem sentWords_head_char {s : List Char} {ws : List Word} (h : SentWords s ws) :
    ∃ c cs, s = c :: cs ∧ isWs c = false ∧ isPunct c = false := by
  cases ws with
  | nil => simp [SentWords] at h
  | cons w ws =>
    cases ws with
    | nil =>
      obtain ⟨hs, hne, hch⟩ := h
      cases hw : w.word with
      | nil => rw [hw] at hne; exact absurd rfl hne
      | cons c cs =>
        refine ⟨c, cs, by rw [hs, hw], ?_, ?_⟩
        · exact (hch c (by rw [hw]; exact List.mem_cons_self c cs)).1
        · exact (hch c (by rw [hw]; exact List.mem_cons_self c cs)).2
    | cons w2 ws2 =>
      obtain ⟨⟨hne, hch⟩, sep, rest, hsep, hs, hrest⟩ := h
      cases hw : w.word with
      | nil => rw [hw] at hne; exact absurd rfl hne
      | cons c cs =>
        refine ⟨c, cs ++ sep ++ rest, by rw [hs, hw]; simp, ?_, ?_⟩
        · exact (hch c (by rw [hw]; exact List.mem_cons_self c cs)).1
        · exact (hch c (by rw [hw]; exact List.mem_cons_self c cs)).2

theorem sentWords_no_punct {ws : List Word} :
    ∀ {s : List Char}, SentWords s ws → ∀ c ∈ s, isPunct c = false := by
  induction ws with
  | nil => intro s h; simp [SentWords] at h
  | cons w ws ih =>
    intro s h c hc
    cases ws with
    | nil =>
      obtain ⟨hs, -, hch⟩ := h
      exact (hch c (by rw [← hs]; exact hc)).2
    | cons w2 ws2 =>
      obtain ⟨⟨-, hch⟩, sep, rest, hsep, hs, hrest⟩ := h
      rw [hs] at hc
      rcases List.mem_append.mp hc with hc | hc
      · rcases List.mem_append.mp hc with hc | hc
        · exact (hch c hc).2
        · exact ws_not_punct (hsep c hc)
      · exact ih hrest c hc

theorem sentWords_last_not_ws {ws : List Word} :
    ∀ {s : List Char}, SentWords s ws →
      ∀ cl, s.getLast? = some cl → isWs cl = false := by
  induction ws with
  | nil => intro s h; simp [SentWords] at h
  | cons w ws ih =>
    intro s h cl hl
    cases ws with
    | nil =>
      obtain ⟨hs, -, hch⟩ := h
      rw [hs] at hl
      exact (hch cl (List.mem_of_getLast?_eq_some hl)).1
    | cons w2 ws2 =>
      obtain ⟨⟨-, -⟩, sep, rest, hsep, hs, hrest⟩ := h
      obtain ⟨c0, cs0, hrc, -, -⟩ := sentWords_head_char hrest
      have hrne : rest ≠ [] := by rw [hrc]; exact List.cons_ne_nil _ _
      rw [hs] at hl
      rw [List.append_assoc] at hl
      rw [List.getLast?_append_of_ne_nil _ (by
        intro hcon
        rcases List.append_eq_nil.mp hcon with ⟨-, h2⟩
        exact hrne h2)] at hl
      rw [List.getLast?_append_of_ne_nil _ hrne] at hl
      exact ih hrest cl hl

/-! ### The splitter on a good text (claim C7) -/

theorem scan_none : ∀ (s : List Char) (u : List Char), s ≠ [] →
    (∀ c ∈ s, isPunct c = false) →
    (∀ cl, s.getLast? = some cl → isWs cl = false) →
    dropWsThenPunct? (s ++ u) = none := by
  intro s
  induction s with
  | nil => intro u h _ _; exact absurd rfl h
  | cons c cs ih =>
    intro u _ hnp hlast
    have hcnp : isPunct c = false := hnp c (List.mem_cons_self c cs)
    simp only [List.cons_append, dropWsThenPunct?]
    rw [if_neg (by simp [hcnp])]
    cases hcs : cs with
    | nil =>
      have hcws : isWs c = false := hlast c (by rw [hcs]; rfl)
      rw [if_neg (by simp [hcws])]
    | cons e es =>
      by_cases hcws : isWs c = true
      · rw [if_pos hcws]
        rw [← hcs]
        exact ih u (by rw [hcs]; exact List.cons_ne_nil _ _)
          (fun d hd => hnp d (List.mem_cons_of_mem c hd))
          (fun cl hcl => hlast cl (List.mem_getLast?_cons hcl))
      · rw [if_neg hcws]

theorem splitAux_sentence : ∀ (s : List Char) (m : Nat) (u tok : List Char),
    (∀ c ∈ s, isPunct c = false) →
    (∀ cl, s.getLast? = some cl → isWs cl = false) →
    splitAux (s.length + m) (s ++ u) tok = splitAux m u (s.reverse ++ tok) := by
  intro s
  induction s with
  | nil => intro m u tok _ _; simp
  | cons c cs ih =>
    intro m u tok hnp hlast
    have hnone : dropWsThenPunct? ((c :: cs) ++ u) = none :=
      scan_none (c :: cs) u (List.cons_ne_nil c cs) hnp hlast
    simp only [List.length_cons, List.cons_append]
    have hfuel : cs.length + 1 + m = (cs.length + m) + 1 := by omega
    rw [hfuel]
    simp only [splitAux]
    rw [List.cons_append] at hnone
    rw [hnone]
    have := ih m u (c :: tok)
      (fun d hd => hnp d (List.mem_cons_of_mem c hd))
      (fun cl hcl => by
        cases hcs : cs with
        | nil => rw [hcs] at hcl; cases hcl
        | cons e es =>
          apply hlast cl
          rw [hcs] at hcl ⊢
          exact List.mem_getLast?_cons hcl)
    rw [this]
    congr 1
    simp

theorem delim_step (a : List Char) (p : Char) (r : List Char)
    (ha : ∀ c ∈ a, isWs c = true) (hp : isPunct p = true) :
    dropWsThenPunct? (a ++ p :: r) = some r := by
  induction a with
  | nil => simp [dropWsThenPunct?, hp]
  | cons c cs ih =>
    have h1 : isPunct c = false := ws_not_punct (ha c (List.mem_cons_self c cs))
    simp only [List.cons_append, dropWsThenPunct?]
    rw [if_neg (by simp [h1])]
    rw [if_pos (ha c (List.mem_cons_self c cs))]
    exact ih (fun d hd => ha d (List.mem_cons_of_mem c hd))

theorem dropWhile_ws_append (b t' : List Char) (hb : ∀ c ∈ b, isWs c = true) :
    (b ++ t').dropWhile isWs = t'.dropWhile isWs := by
  induction b with
  | nil => simp
  | cons c cs ih =>
    simp only [List.cons_append, List.dropWhile_cons]
    rw [if_pos (hb c (List.mem_cons_self c cs))]
    exact ih (fun d hd => hb d (List.mem_cons_of_mem c hd))

theorem splitAux_nil (fuel : Nat) (tok : List Char) :
    splitAux fuel [] tok = [tok.reverse] := by
  cases fuel <;> rfl

theorem splitAux_delim (n : Nat) (a : List Char) (p : Char) (b t' tok : List Char)
    (ha : ∀ c ∈ a, isWs c = true) (hp : isPunct p = true) :
    splitAux (n + 1) ((a ++ p :: b) ++ t') tok =
      tok.reverse :: splitAux n ((b ++ t').dropWhile isWs) [] := by
  have hd : dropWsThenPunct? ((a ++ p :: b) ++ t') = some (b ++ t') := by
    rw [List.append_assoc]
    exact delim_step a p (b ++ t') ha hp
  cases a with
  | nil =>
    simp only [List.nil_append, List.cons_append] at hd ⊢
    simp only [splitAux, hd]
  | cons c a' =>
    simp only [List.cons_append] at hd ⊢
    simp only [splitAux, hd]

theorem goodText_sents {items : List (List Char × List Word)} :
    ∀ {t : List Char}, GoodText t items → ∀ q ∈ items, SentWords q.1 q.2 := by
  induction items with
  | nil => intro t _ q hq; simp at hq
  | cons item rest ih =>
    obtain ⟨s, ws⟩ := item
    intro t hG q hq
    cases hrest : rest with
    | nil =>
      subst hrest
      obtain ⟨⟨hSW, -, -⟩, -⟩ := hG
      rcases List.mem_singleton.mp hq with rfl
      exact hSW
    | cons item2 rest2 =>
      subst hrest
      obtain ⟨⟨hSW, -, -⟩, d, t', hD, ht, hG'⟩ := hG
      rcases List.mem_cons.mp hq with rfl | hq
      · exact hSW
      · exact ih hG' q hq

theorem goodText_head_not_ws {t : List Char} {item : List Char × List Word}
    {rest : List (List Char × List Word)}
    (hG : GoodText t (item :: rest)) : t.dropWhile isWs = t := by
  obtain ⟨s, ws⟩ := item
  have hSW : SentWords s ws := goodText_sents hG (s, ws) (List.mem_cons_self _ _)
  obtain ⟨c, cs, hs, hws, -⟩ := sentWords_head_char hSW
  have ht : ∃ u, t = s ++ u := by
    cases hrest : rest with
    | nil =>
      subst hrest
      obtain ⟨-, hend⟩ := hG
      rcases hend with heq | ⟨d, -, heq⟩
      · exact ⟨[], by rw [heq]; simp⟩
      · exact ⟨d, heq⟩
    | cons item2 rest2 =>
      subst hrest
      obtain ⟨-, d, t', -, ht, -⟩ := hG
      exact ⟨d ++ t', by rw [ht, List.append_assoc]⟩
  obtain ⟨u, rfl⟩ := ht
  rw [hs]
  simp only [List.cons_append, List.dropWhile_cons, hws]
  simp

theorem splitAux_goodText :
    ∀ (items : List (List Char × List Word)) (t : List Char) (m : Nat),
      GoodText t items → items ≠ [] →
      (splitAux (t.length + m) t [] = items.map Prod.fst ∨
       splitAux (t.length + m) t [] = items.map Prod.fst ++ [[]]) := by
  intro items
  induction items with
  | nil => intro t m _ h; exact absurd rfl h
  | cons item rest ih =>
    obtain ⟨s, ws⟩ := item
    intro t m hG _
    cases hrest : rest with
    | nil =>
      subst hrest
      obtain ⟨⟨hSW, -, -⟩, hend⟩ := hG
      have hnp := sentWords_no_punct hSW
      have hlast := sentWords_last_not_ws hSW
      rcases hend with heq | ⟨d, hD, heq⟩
      · left
        rw [heq]
        have h1 := splitAux_sentence s m [] [] hnp hlast
        rw [List.append_nil] at h1
        rw [h1, splitAux_nil]
        simp
      · subst heq
        right
        obtain ⟨a, p, b, ha, hp, hb, rfl⟩ := hD
        have hlen : (s ++ (a ++ p :: b)).length + m =
            s.length + ((a.length + b.length + m) + 1) := by
          simp [List.length_append]
          omega
        rw [hlen]
        rw [splitAux_sentence s ((a.length + b.length + m) + 1) (a ++ p :: b) []
          hnp hlast]
        have h2 : a ++ p :: b = (a ++ p :: b) ++ ([] : List Char) := by simp
        rw [h2, splitAux_delim (a.length + b.length + m) a p b [] (s.reverse ++ [])
          ha hp]
        rw [dropWhile_ws_append b [] hb]
        simp only [List.dropWhile_nil, splitAux_nil]
        simp
    | cons item2 rest2 =>
      subst hrest
      obtain ⟨⟨hSW, -, -⟩, d, t', hD, ht, hG'⟩ := hG
      subst ht
      obtain ⟨a, p, b, ha, hp, hb, rfl⟩ := hD
      have hnp := sentWords_no_punct hSW
      have hlast := sentWords_last_not_ws hSW
      have hdw : t'.dropWhile isWs = t' := goodText_head_not_ws hG'
      have hlen : (s ++ (a ++ p :: b) ++ t').length + m =
          s.length + ((a.length + b.length + t'.length + m) + 1) := by
        simp [List.length_append]
        omega
      rw [hlen]
      rw [List.append_assoc]
      rw [splitAux_sentence s ((a.length + b.length + t'.length + m) + 1)
        ((a ++ p :: b) ++ t') [] hnp hlast]
      rw [splitAux_delim (a.length + b.length + t'.length + m) a p b t'
        (s.reverse ++ []) ha hp]
      rw [dropWhile_ws_append b t' hb, hdw]
      have hfuel2 : a.length + b.length + t'.length + m =
          t'.length + (a.length + b.length + m) := by omega
      rw [hfuel2]
      have key := ih t' (a.length + b.length + m) hG' (List.cons_ne_nil _ _)
      rcases key with key | key
      · left
        rw [key]
        simp
      · right
        rw [key]
        simp

theorem splitSentences_goodText (t : List Char)
    (items : List (List Char × List Word))
    (hG : GoodText t items) (hne : items ≠ []) :
    splitSentences t = items.map Prod.fst := by
  unfold splitSentences
  have key := splitAux_goodText items t 0 hG hne
  rw [Nat.add_zero] at key
  have hkeep : ∀ q ∈ items, (fun u => u.any (fun c => !(isWs c)))
      ((Prod.fst : List Char × List Word → List Char) q) = true := by
    intro q hq
    have hSW := goodText_sents hG q hq
    obtain ⟨c, cs, hs, hws, -⟩ := sentWords_head_char hSW
    simp only [hs, List.any_cons, Bool.or_eq_true, Bool.not_eq_true']
    exact Or.inl hws
  rcases key with key | key
  · rw [key]
    apply List.filter_eq_self.mpr
    intro u hu
    obtain ⟨q, hq, rfl⟩ := List.mem_map.mp hu
    exact hkeep q hq
  · rw [key]
    rw [List.filter_append]
    have h1 : (items.map Prod.fst).filter (fun u => u.any (fun c => !(isWs c))) =
        items.map Prod.fst := by
      apply List.filter_eq_self.mpr
      intro u hu
      obtain ⟨q, hq, rfl⟩ := List.mem_map.mp hu
      exact hkeep q hq
    rw [h1]
    simp

/-! ### The aligner on a good sentence (claim C7) -/

theorem firstMatch_eq_none_of {s pat : List Char} :
    ∀ {n i : Nat}, (∀ k, i ≤ k → ¬ pat <+: s.drop k) →
      firstMatch s pat i n = none := by
  intro n
  induction n with
  | zero => intro i _; rfl
  | succ n ih =>
    intro i h
    simp only [firstMatch]
    rw [if_neg (fun hp => h i (le_refl i) (List.isPrefixOf_iff_prefix.mp hp))]
    exact ih (fun k hk => h k (by omega))

theorem indexOfFrom_eq_none_of {s pat : List Char} {start : Nat}
    (h : ∀ k, min start s.length ≤ k → ¬ pat <+: s.drop k) :
    indexOfFrom s pat start = none :=
  firstMatch_eq_none_of h

theorem prefix_cons_head {c d : Char} {cs rest : List Char}
    (h : (c :: cs) <+: (d :: rest)) : c = d := by
  obtain ⟨t, ht⟩ := h
  simp only [List.cons_append] at ht
  exact (List.cons.injEq .. ▸ ht).1

theorem aligned_indexOf (s : List Char) (sep wword tail : List Char) (cei : Nat)
    (hdrop : s.drop cei = sep ++ (wword ++ tail))
    (hsep : ∀ c ∈ sep, isWs c = true)
    (hcei : cei ≤ s.length)
    (hw : wordChars wword) :
    indexOfFrom s wword cei = some (cei + sep.length) := by
  obtain ⟨hne, hch⟩ := hw
  have hlen : s.length - cei = sep.length + (wword.length + tail.length) := by
    have := congrArg List.length hdrop
    simpa [List.length_drop, List.length_append] using this
  have hmin : min cei s.length = cei := Nat.min_eq_left hcei
  apply indexOfFrom_some_of
  · omega
  · omega
  · have hdd : s.drop (cei + sep.length) = wword ++ tail := by
      rw [← List.drop_drop, hdrop, List.drop_left]
    rw [hdd]
    exact List.prefix_append wword tail
  · intro k hk1 hk2
    rw [hmin] at hk1
    intro hpre
    have hdk : s.drop k = sep.drop (k - cei) ++ (wword ++ tail) := by
      have h1 : s.drop k = (s.drop cei).drop (k - cei) := by
        rw [List.drop_drop]
        congr 1
        omega
      rw [h1, hdrop, List.drop_append_of_le_length (by omega)]
    cases hww : wword with
    | nil => exact hne hww
    | cons c cs =>
      have hklt : k - cei < sep.length := by omega
      cases hsd : sep.drop (k - cei) with
      | nil =>
        have := congrArg List.length hsd
        simp only [List.length_drop, List.length_nil] at this
        omega
      | cons d ds =>
        have hdmem : d ∈ sep := by
          have : d ∈ sep.drop (k - cei) := by rw [hsd]; exact List.mem_cons_self d ds
          exact List.mem_of_mem_drop this
        have hdws : isWs d = true := hsep d hdmem
        rw [hww] at hpre
        rw [hdk, hsd] at hpre
        simp only [List.cons_append] at hpre
        have hcd : c = d := prefix_cons_head hpre
        have hcws : isWs c = false := (hch c (by rw [hww]; exact List.mem_cons_self c cs)).1
        rw [hcd, hdws] at hcws
        cases hcws

theorem chunkLoop_cons_none (s : List Char) (w : Word) (ws : List Word) (st : ChunkState)
    (h : indexOfFrom s w.word st.chunkEndIndex = none) :
    chunkLoop s (w :: ws) st = (st, w :: ws) := by
  simp only [chunkLoop, h]

theorem chunkLoop_cons_extend (s : List Char) (w : Word) (ws : List Word) (st : ChunkState)
    (index : Nat) (h : indexOfFrom s w.word st.chunkEndIndex = some index)
    (hc : ¬ (((index : Int) + w.word.length) - st.chunkStartIndex > 30)) :
    chunkLoop s (w :: ws) st =
      chunkLoop s ws ⟨st.chunks, st.chunkStartIndex, index + w.word.length,
        st.chunkStartTime, w.«end»⟩ := by
  simp only [chunkLoop, h]
  rw [if_neg hc]

theorem chunkLoop_aligned (s : List Char) :
    ∀ (ws : List Word) (sep restW : List Char) (st : ChunkState) (f : List Word),
      SentWords restW ws →
      (∀ c ∈ sep, isWs c = true) →
      s.drop st.chunkEndIndex = sep ++ restW →
      st.chunkEndIndex ≤ s.length →
      st.chunkStartIndex = 0 →
      s.length ≤ 30 →
      (∀ w' ∈ f, w'.word ≠ []) →
      ∃ wl, ws.getLast? = some wl ∧
        chunkLoop s (ws ++ f) st =
          (⟨st.chunks, st.chunkStartIndex, s.length, st.chunkStartTime, wl.«end»⟩, f) := by
  intro ws
  induction ws with
  | nil => intro sep restW st f hSW; simp [SentWords] at hSW
  | cons w ws2 ih =>
    intro sep restW st f hSW hsep hdrop hcei hcsi hslen hf
    cases ws2 with
    | nil =>
      obtain ⟨hrw, hwc⟩ := hSW
      subst hrw
      have hidx := aligned_indexOf s sep w.word [] st.chunkEndIndex
        (by rw [hdrop]; simp) hsep hcei hwc
      have hcei2 : st.chunkEndIndex + sep.length + w.word.length = s.length := by
        have := congrArg List.length hdrop
        simp only [List.length_drop, List.length_append] at this
        omega
      refine ⟨w, rfl, ?_⟩
      rw [List.cons_append, List.nil_append,
        chunkLoop_cons_extend s w f st (st.chunkEndIndex + sep.length) hidx
          (by rw [hcsi]; omega), hcei2]
      cases f with
      | nil => rfl
      | cons fw f' =>
        apply chunkLoop_cons_none
        show indexOfFrom s fw.word s.length = none
        apply indexOfFrom_eq_none_of
        intro k hk hpre
        rw [Nat.min_self] at hk
        rw [List.drop_eq_nil_of_le hk] at hpre
        exact hf fw (List.mem_cons_self fw f') (List.prefix_nil.mp hpre)
    | cons w2 ws3 =>
      obtain ⟨hwc, sep', rest', hsep', hrw, hSW'⟩ := hSW
      subst hrw
      have hidx := aligned_indexOf s sep w.word (sep' ++ rest') st.chunkEndIndex
        (by rw [hdrop]; simp) hsep hcei hwc
      have hfit : st.chunkEndIndex + sep.length + w.word.length +
          (sep'.length + rest'.length) = s.length := by
        have := congrArg List.length hdrop
        simp only [List.length_drop, List.length_append] at this
        omega
      have hdrop2 : s.drop (st.chunkEndIndex + sep.length + w.word.length) =
          sep' ++ rest' := by
        have h1 : s.drop (st.chunkEndIndex + sep.length + w.word.length) =
            ((s.drop st.chunkEndIndex).drop sep.length).drop w.word.length := by
          rw [List.drop_drop, List.drop_drop]
          congr 1
          omega
        rw [h1, hdrop, List.drop_left, List.append_assoc, List.drop_left]
      have key := ih sep' rest'
        ⟨st.chunks, st.chunkStartIndex,
         st.chunkEndIndex + sep.length + w.word.length,
         st.chunkStartTime, w.«end»⟩ f hSW' hsep' hdrop2
        (by show st.chunkEndIndex + sep.length + w.word.length ≤ s.length; omega)
        hcsi hslen hf
      obtain ⟨wl, hwl, hloop⟩ := key
      refine ⟨wl, ?_, ?_⟩
      · rw [List.getLast?_cons_cons]
        exact hwl
      · rw [List.cons_append,
          chunkLoop_cons_extend s w ((w2 :: ws3) ++ f) st (st.chunkEndIndex + sep.length)
            hidx (by rw [hcsi]; omega)]
        exact hloop

theorem sentWords_words_ne_nil {ws : List Word} :
    ∀ {s : List Char}, SentWords s ws → ∀ w ∈ ws, w.word ≠ [] := by
  induction ws with
  | nil => intro s h; simp [SentWords] at h
  | cons w ws2 ih =>
    intro s h w' hw'
    cases ws2 with
    | nil =>
      obtain ⟨-, hne, -⟩ := h
      rcases List.mem_singleton.mp hw' with rfl
      exact hne
    | cons w2 ws3 =>
      obtain ⟨⟨hne, -⟩, sep, rest, -, -, hSW'⟩ := h
      rcases List.mem_cons.mp hw' with rfl | hw'
      · exact hne
      · exact ih hSW' w' hw'

theorem goodText_goodSents {items : List (List Char × List Word)} :
    ∀ {t : List Char}, GoodText t items → ∀ q ∈ items, GoodSent q.1 q.2 := by
  induction items with
  | nil => intro t _ q hq; simp at hq
  | cons item rest ih =>
    obtain ⟨s, ws⟩ := item
    intro t hG q hq
    cases hrest : rest with
    | nil =>
      subst hrest
      obtain ⟨hGS, -⟩ := hG
      rcases List.mem_singleton.mp hq with rfl
      exact hGS
    | cons item2 rest2 =>
      subst hrest
      obtain ⟨hGS, d, t', hD, ht, hG'⟩ := hG
      rcases List.mem_cons.mp hq with rfl | hq
      · exact hGS
      · exact ih hG' q hq

theorem chunkSentence_aligned (s : List Char) (w0 : Word) (ws' : List Word)
    (f : List Word)
    (hSW : SentWords s (w0 :: ws'))
    (hslen : s.length ≤ 30)
    (hmd : MinDur (w0 :: ws'))
    (hf : ∀ w' ∈ f, w'.word ≠ []) :
    chunkSentence s ((w0 :: ws') ++ f) =
      some ([⟨s, w0.start,
        ((w0 :: ws').getLast (List.cons_ne_nil w0 ws')).«end»⟩], f) := by
  obtain ⟨wl, hwl, hloop⟩ := chunkLoop_aligned s (w0 :: ws') [] s
    ⟨[], 0, 0, w0.start, w0.start⟩ f hSW (by intro c hc; cases hc)
    (by simp) (by simp) rfl hslen hf
  have hwl2 : (w0 :: ws').getLast (List.cons_ne_nil w0 ws') = wl := by
    rw [List.getLast?_eq_getLast (w0 :: ws') (List.cons_ne_nil w0 ws')] at hwl
    exact Option.some_inj.mp hwl
  have hmd' : ¬ ratSub wl.«end» w0.start < mkRat 1 2 := by
    have h := hmd
    simp only [MinDur] at h
    rwa [hwl2] at h
  rw [List.cons_append] at hloop
  rw [List.cons_append]
  simp only [chunkSentence, hloop]
  rw [if_neg hmd']
  rw [hwl2]
  simp [jsSliceFrom]

theorem chunkTextStep_some (chunks : List Chunk) (rem : List Word) (s : List Char)
    (cs : List Chunk) (rem' : List Word)
    (h : chunkSentence s rem = some (cs, rem')) :
    chunkTextStep (some (chunks, rem)) s = some (chunks ++ cs, rem') := by
  simp only [chunkTextStep, h]

theorem chunkText_fold_aligned :
    ∀ (items : List (List Char × List Word)) (acc : List Chunk),
      (∀ q ∈ items, GoodSent q.1 q.2) →
      ∃ cs : List Chunk,
        (items.map Prod.fst).foldl chunkTextStep
            (some (acc, (items.map Prod.snd).join)) = some (acc ++ cs, []) ∧
        cs.map Chunk.text = items.map Prod.fst := by
  intro items
  induction items with
  | nil =>
    intro acc _
    exact ⟨[], by simp, rfl⟩
  | cons item rest ih =>
    obtain ⟨s, ws⟩ := item
    intro acc hGS
    obtain ⟨hSW, hslen, hmd⟩ := hGS (s, ws) (List.mem_cons_self _ _)
    cases ws with
    | nil => simp [SentWords] at hSW
    | cons w0 ws' =>
      have hf : ∀ w' ∈ (rest.map Prod.snd).join, w'.word ≠ [] := by
        intro w' hw'
        rw [List.mem_join] at hw'
        obtain ⟨l, hl, hwl⟩ := hw'
        rw [List.mem_map] at hl
        obtain ⟨q, hq, rfl⟩ := hl
        exact sentWords_words_ne_nil (hGS q (List.mem_cons_of_mem _ hq)).1 w' hwl
      have hstep := chunkSentence_aligned s w0 ws' ((rest.map Prod.snd).join)
        hSW hslen hmd hf
      obtain ⟨cs', hfold, htexts⟩ := ih
        (acc ++ [⟨s, w0.start, ((w0 :: ws').getLast (List.cons_ne_nil w0 ws')).«end»⟩])
        (fun q hq => hGS q (List.mem_cons_of_mem _ hq))
      refine ⟨⟨s, w0.start, ((w0 :: ws').getLast (List.cons_ne_nil w0 ws')).«end»⟩ :: cs',
        ?_, ?_⟩
      · simp only [List.map_cons, List.foldl_cons, List.join_cons]
        rw [chunkTextStep_some acc ((w0 :: ws') ++ (rest.map Prod.snd).join) s
          [⟨s, w0.start, ((w0 :: ws').getLast (List.cons_ne_nil w0 ws')).«end»⟩]
          ((rest.map Prod.snd).join) hstep]
        rw [hfold, List.append_assoc, List.singleton_append]
      · simp [htexts]

theorem chunkText_goodText (t : List Char) (items : List (List Char × List Word))
    (hG : GoodText t items) (hne : items ≠ []) :
    ∃ cs : List Chunk,
      chunkText t ((items.map Prod.snd).join) = some (cs, []) ∧
      cs.map Chunk.text = items.map Prod.fst := by
  obtain ⟨cs, hfold, htexts⟩ := chunkText_fold_aligned items []
    (fun q hq => goodText_goodSents hG q hq)
  refine ⟨cs, ?_, htexts⟩
  unfold chunkText
  rw [splitSentences_goodText t items hG hne]
  rw [hfold, List.nil_append]

/-! ### Tokenization algebra (claim C7's whitespace normalization) -/

theorem tokenize_cons_nil (c : Char) :
    tokenize [c] = if isWs c then [] else [[c]] := rfl

theorem tokenize_cons_cons (c d : Char) (cs : List Char) :
    tokenize (c :: d :: cs) =
      if isWs c then tokenize (d :: cs)
      else if isWs d then [c] :: tokenize (d :: cs)
      else match tokenize (d :: cs) with
        | [] => [[c]]
        | t :: ts => (c :: t) :: ts := rfl

theorem tokenize_ws (c : Char) (cs : List Char) (h : isWs c = true) :
    tokenize (c :: cs) = tokenize cs := by
  cases cs with
  | nil => rw [tokenize_cons_nil, if_pos h]; rfl
  | cons d ds => rw [tokenize_cons_cons, if_pos h]

theorem tokenize_single (c : Char) (hc : isWs c = false) : tokenize [c] = [[c]] := by
  rw [tokenize_cons_nil, if_neg (by simp [hc])]

theorem tokenize_break (c d : Char) (cs : List Char) (hc : isWs c = false)
    (hd : isWs d = true) :
    tokenize (c :: d :: cs) = [c] :: tokenize (d :: cs) := by
  rw [tokenize_cons_cons, if_neg (by simp [hc]), if_pos hd]

theorem tokenize_extend (c d : Char) (cs : List Char) (hc : isWs c = false)
    (hd : isWs d = false) (t : List Char) (ts : List (List Char))
    (h : tokenize (d :: cs) = t :: ts) :
    tokenize (c :: d :: cs) = (c :: t) :: ts := by
  rw [tokenize_cons_cons, if_neg (by simp [hc]), if_neg (by simp [hd]), h]

theorem tokenize_cons_ne_nil :
    ∀ (l : List Char) (c : Char), isWs c = false → tokenize (c :: l) ≠ [] := by
  intro l
  induction l with
  | nil => intro c hc; rw [tokenize_single c hc]; simp
  | cons d ds ih =>
    intro c hc
    by_cases hd : isWs d = true
    · rw [tokenize_break c d ds hc hd]; simp
    · have hd' : isWs d = false := by simpa using hd
      obtain ⟨t, ts, h⟩ : ∃ t ts, tokenize (d :: ds) = t :: ts := by
        cases htok : tokenize (d :: ds) with
        | nil => exact absurd htok (ih d hd')
        | cons t ts => exact ⟨t, ts, rfl⟩
      rw [tokenize_extend c d ds hc hd' t ts h]
      simp

theorem tokenize_ws_append (u x : List Char)
    (hu : ∀ c ∈ u, isWs c = true) : tokenize (u ++ x) = tokenize x := by
  induction u with
  | nil => rfl
  | cons c u' ih =>
    rw [List.cons_append, tokenize_ws c (u' ++ x) (hu c (List.mem_cons_self c u'))]
    exact ih (fun d hd => hu d (List.mem_cons_of_mem _ hd))

theorem tokenize_split_ws (c : Char) (hws : isWs c = true) :
    ∀ (s x : List Char), tokenize (s ++ c :: x) = tokenize s ++ tokenize (c :: x) := by
  intro s
  induction s with
  | nil => intro x; rfl
  | cons d s' ih =>
    intro x
    by_cases hd : isWs d = true
    · rw [List.cons_append, tokenize_ws d (s' ++ c :: x) hd, ih, tokenize_ws d s' hd]
    · have hd' : isWs d = false := by simpa using hd
      cases s' with
      | nil =>
        rw [List.cons_append, List.nil_append, tokenize_break d c x hd' hws,
          tokenize_single d hd']
        rfl
      | cons e s'' =>
        by_cases he : isWs e = true
        · rw [List.cons_append, List.cons_append,
            tokenize_break d e (s'' ++ c :: x) hd' he]
          have hre : e :: (s'' ++ c :: x) = (e :: s'') ++ c :: x := by simp
          rw [hre, ih, tokenize_break d e s'' hd' he]
          rfl
        · have he' : isWs e = false := by simpa using he
          obtain ⟨t, ts, htok⟩ : ∃ t ts, tokenize (e :: s'') = t :: ts := by
            cases h2 : tokenize (e :: s'') with
            | nil => exact absurd h2 (tokenize_cons_ne_nil s'' e he')
            | cons t ts => exact ⟨t, ts, rfl⟩
          have htok2 : tokenize (e :: (s'' ++ c :: x)) =
              t :: (ts ++ tokenize (c :: x)) := by
            have h3 := ih x
            rw [List.cons_append] at h3
            rw [h3, htok]
            rfl
          rw [List.cons_append, List.cons_append,
            tokenize_extend d e (s'' ++ c :: x) hd' he' t (ts ++ tokenize (c :: x)) htok2,
            tokenize_extend d e s'' hd' he' t ts htok]
          rfl

theorem tokenize_split (s u x : List Char) (hne : u ≠ [])
    (hu : ∀ c ∈ u, isWs c = true) :
    tokenize (s ++ u ++ x) = tokenize s ++ tokenize x := by
  cases u with
  | nil => exact absurd rfl hne
  | cons c u' =>
    have hc := hu c (List.mem_cons_self c u')
    have h1 : s ++ (c :: u') ++ x = s ++ c :: (u' ++ x) := by simp
    rw [h1, tokenize_split_ws c hc s (u' ++ x), tokenize_ws c (u' ++ x) hc,
      tokenize_ws_append u' x (fun d hd => hu d (List.mem_cons_of_mem _ hd))]

theorem punctToSpace_id (s : List Char) (h : ∀ c ∈ s, isPunct c = false) :
    punctToSpace s = s := by
  induction s with
  | nil => rfl
  | cons c cs ih =>
    have hc := h c (List.mem_cons_self _ _)
    have ih2 := ih (fun d hd => h d (List.mem_cons_of_mem _ hd))
    simp only [punctToSpace, List.map_cons] at ih2 ⊢
    rw [hc, ih2]
    simp

theorem punctToSpace_append (a b : List Char) :
    punctToSpace (a ++ b) = punctToSpace a ++ punctToSpace b := by
  simp [punctToSpace]

theorem punctToSpace_delim (a : List Char) (p : Char) (b : List Char)
    (ha : ∀ c ∈ a, isWs c = true) (hp : isPunct p = true)
    (hb : ∀ c ∈ b, isWs c = true) :
    punctToSpace (a ++ p :: b) = a ++ ' ' :: b := by
  rw [punctToSpace_append]
  rw [punctToSpace_id a (fun c hc => ws_not_punct (ha c hc))]
  congr 1
  simp only [punctToSpace, List.map_cons]
  rw [hp]
  simp only [if_true]
  congr 1
  exact punctToSpace_id b (fun c hc => ws_not_punct (hb c hc))

theorem delim_all_ws (a : List Char) (b : List Char)
    (ha : ∀ c ∈ a, isWs c = true) (hb : ∀ c ∈ b, isWs c = true) :
    ∀ c ∈ a ++ ' ' :: b, isWs c = true := by
  intro c hc
  rcases List.mem_append.mp hc with h1 | h2
  · exact ha c h1
  · rcases List.mem_cons.mp h2 with rfl | h3
    · decide
    · exact hb c h3

theorem joinSpace_tokenize_goodText :
    ∀ (items : List (List Char × List Word)) (t : List Char),
      GoodText t items → items ≠ [] →
      tokenize (joinSpace (items.map Prod.fst)) = tokenize (punctToSpace t) := by
  intro items
  induction items with
  | nil => intro t _ h; exact absurd rfl h
  | cons item rest ih =>
    obtain ⟨s, ws⟩ := item
    intro t hG _
    cases hrest : rest with
    | nil =>
      subst hrest
      obtain ⟨⟨hSW, -, -⟩, hend⟩ := hG
      have hnp := sentWords_no_punct hSW
      rcases hend with heq | ⟨d, hD, heq⟩
      · rw [heq]
        simp only [List.map_cons, List.map_nil, joinSpace]
        rw [punctToSpace_id s hnp]
      · subst heq
        obtain ⟨a, p, b, ha, hp, hb, rfl⟩ := hD
        simp only [List.map_cons, List.map_nil, joinSpace]
        rw [punctToSpace_append, punctToSpace_id s hnp,
          punctToSpace_delim a p b ha hp hb]
        have h1 : s ++ (a ++ ' ' :: b) = s ++ (a ++ ' ' :: b) ++ [] := by simp
        rw [h1, tokenize_split s (a ++ ' ' :: b) [] (by simp)
          (delim_all_ws a b ha hb)]
        rw [show tokenize [] = [] from rfl, List.append_nil]
    | cons item2 rest2 =>
      subst hrest
      obtain ⟨⟨hSW, -, -⟩, d, t', hD, ht, hG'⟩ := hG
      subst ht
      obtain ⟨a, p, b, ha, hp, hb, rfl⟩ := hD
      have hnp := sentWords_no_punct hSW
      have hLHS : joinSpace (((s, ws) :: item2 :: rest2).map Prod.fst) =
          s ++ [' '] ++ joinSpace ((item2 :: rest2).map Prod.fst) := by
        simp only [List.map_cons, joinSpace]
        simp
      rw [hLHS]
      rw [tokenize_split s [' '] (joinSpace ((item2 :: rest2).map Prod.fst))
        (by simp) (by intro c hc; rcases List.mem_singleton.mp hc with rfl; decide)]
      rw [punctToSpace_append, punctToSpace_append, punctToSpace_id s hnp,
        punctToSpace_delim a p b ha hp hb]
      rw [tokenize_split s (a ++ ' ' :: b) (punctToSpace t') (by simp)
        (delim_all_ws a b ha hb)]
      rw [ih t' hG' (List.cons_ne_nil _ _)]

/-! ### Claim C1 -/

/-- **C1, code bug.**  The claim (and the spec's contract) says the
formatter maps 75.256 to exactly `"00:01:15.256"`, timezone- and
locale-independently.  The source's `secondsToSRT` instead builds a
host-local `Date` and formats it with a German-locale Europe/Berlin
formatter: on a UTC host it renders `"01:01:15,256"` (shifted by Berlin's
UTC offset), and even on a Berlin host it renders `"00:01:15,256"` —
fractional seconds after a comma, never the claimed dot — so the output is
host-timezone-dependent and never equals the specified string. -/
theorem C1_secondsToSRT_timezone_dependent :
    secondsToSRT 0 (mkRat 75256 1000) = "01:01:15,256".toList ∧
    secondsToSRT 60 (mkRat 75256 1000) = "00:01:15,256".toList ∧
    secondsToSRT 0 (mkRat 75256 1000) ≠ secondsToSRT 60 (mkRat 75256 1000) ∧
    secondsToSRT 60 (mkRat 75256 1000) ≠ "00:01:15.256".toList := by
  refine ⟨by decide, by decide, by decide, by decide⟩

/-! ### Claim C2 -/

/-- **C2, code bug.**  The claim says a sentence whose very first
word-to-text match fails — and more generally a sentence producing only
one span of duration < 0.5 s — still yields a single span covering the
whole sentence.  In the source, both runs reach the merge branch with an
empty `chunks` array and execute `chunks[-1].text += ...`, a `TypeError`
(modelled `none`): the first input breaks on the unmatched first word, the
second matches its only word but accumulates a 0.1 s lone span. -/
theorem C2_chunkSentence_crashes_on_lone_short_span :
    chunkSentence "Hello".toList [⟨"xyz".toList, 0, 1⟩] = none ∧
    chunkSentence "Hi".toList [⟨"Hi".toList, 0, mkRat 1 10⟩] = none := by
  refine ⟨by decide, by decide⟩

/-! ### Claim C9 -/

/-- **C9, confirmed.**  The spec scenario: narration
`"Hello world. Goodbye now."` with the four timed words yields exactly the
two cues `{"Hello world", 0, 0.9}` and `{"Goodbye now", 1.0, 1.9}`. -/
theorem C9_hello_goodbye_scenario :
    chunkText "Hello world. Goodbye now.".toList
      [⟨"Hello".toList, 0, mkRat 2 5⟩, ⟨"world".toList, mkRat 2 5, mkRat 9 10⟩,
       ⟨"Goodbye".toList, 1, mkRat 8 5⟩, ⟨"now".toList, mkRat 8 5, mkRat 19 10⟩] =
    some ([⟨"Hello world".toList, 0, mkRat 9 10⟩, ⟨"Goodbye now".toList, 1, mkRat 19 10⟩], []) := by
  decide

/-! ### Claim C3, counterexample -/

/-- **C3, counterexample.**  The claim says every cue's `end` equals the
`end` of its last contributing word, *including* cues produced by the
short-final-span merge.  For the one-sentence narration
`"AAAAAAAAAAAAAAAAAAAAAAAAAAAA BB"` (28 `A`s) with words
`{A…A, 0, 1}` and `{BB, 1, 1.2}`, the `BB` span (0.2 s) is merged into the
previous chunk: the resulting single cue has contributing words `A…A`
(matched at 0) and `BB` (matched at 29), so its last contributing word ends
at 1.2, yet the cue's `end` stays 1. -/
theorem C3_counterexample_merged_cue_end :
    chunkTextI "AAAAAAAAAAAAAAAAAAAAAAAAAAAA BB".toList
        [⟨"AAAAAAAAAAAAAAAAAAAAAAAAAAAA".toList, 0, 1⟩, ⟨"BB".toList, 1, mkRat 6 5⟩] =
      some ([⟨⟨"AAAAAAAAAAAAAAAAAAAAAAAAAAAA BB".toList, 0, 1⟩,
              [(⟨"AAAAAAAAAAAAAAAAAAAAAAAAAAAA".toList, 0, 1⟩, 0),
               (⟨"BB".toList, 1, mkRat 6 5⟩, 29)], true⟩], []) ∧
    (mkRat 6 5 : ℚ) ≠ 1 := by
  refine ⟨by decide, by decide⟩

/-! ### Claim C4, counterexample -/

/-- **C4, counterexample.**  The claim says no emitted cue text exceeds 30
characters except one formed by the short-trailing-span merge.  On the
one-sentence narration `"ab " ++ 32 c's` (35 characters) with the single
word `{ab, 0, 1}`, the loop consumes `ab`, leaves `chunkStartIndex = 0`,
and the final span — pushed by the non-merge branch, since its duration is
1 s ≥ 0.5 s — covers the whole 35-character sentence.  The run emits
exactly one cue, of 35 characters, and no merge happened (a merge rewrites
a previously emitted chunk, and here none existed). -/
theorem C4_counterexample_long_final_span :
    chunkText "ab cccccccccccccccccccccccccccccccc".toList [⟨"ab".toList, 0, 1⟩] =
      some ([⟨"ab cccccccccccccccccccccccccccccccc".toList, 0, 1⟩], []) ∧
    "ab cccccccccccccccccccccccccccccccc".toList.length = 35 ∧
    ¬ ratSub (chunkLoop "ab cccccccccccccccccccccccccccccccc".toList
          [⟨"ab".toList, 0, 1⟩] ⟨[], 0, 0, 0, 0⟩).1.chunkEndTime
        (chunkLoop "ab cccccccccccccccccccccccccccccccc".toList
          [⟨"ab".toList, 0, 1⟩] ⟨[], 0, 0, 0, 0⟩).1.chunkStartTime < mkRat 1 2 := by
  refine ⟨by decide, by decide, by decide⟩

/-! ### Claim C7, counterexample -/

/-- **C7, counterexample.**  Two failures of the round-trip claim.
(1) Sentence-delimiting punctuation is consumed by the split and never
reappears in any cue: on the spec's own scenario input, the cue texts
joined and compared up to whitespace lack the periods of the narration.
(2) Even ignoring punctuation, a length-overflow span break can lose text:
on the one-sentence narration `"c*30 aab aa e*30"`, the break at `aab`
resets the search cursor to the match *start*, `aa` re-binds inside `aab`,
and the next break closes the span at `[31, 33)`, dropping `b aa ` — the
emitted cues are `c*30`, `aa`, `e*30`, which no whitespace normalization
(even with `[.!?]` blanked) can reconcile with the narration. -/
theorem C7_counterexample_roundtrip_fails :
    ((chunkText "Hello world. Goodbye now.".toList
      [⟨"Hello".toList, 0, mkRat 2 5⟩, ⟨"world".toList, mkRat 2 5, mkRat 9 10⟩,
       ⟨"Goodbye".toList, 1, mkRat 8 5⟩, ⟨"now".toList, mkRat 8 5, mkRat 19 10⟩]).map
        (fun p => tokenize (joinSpace (p.1.map Chunk.text))) =
      some ["Hello".toList, "world".toList, "Goodbye".toList, "now".toList] ∧
     tokenize "Hello world. Goodbye now.".toList ≠
      ["Hello".toList, "world".toList, "Goodbye".toList, "now".toList]) ∧
    ((chunkText "cccccccccccccccccccccccccccccc aab aa eeeeeeeeeeeeeeeeeeeeeeeeeeeeee".toList
      [⟨"cccccccccccccccccccccccccccccc".toList, 0, 1⟩, ⟨"aab".toList, 1, 2⟩,
       ⟨"aa".toList, 2, 3⟩, ⟨"eeeeeeeeeeeeeeeeeeeeeeeeeeeeee".toList, 3, 4⟩]).map
        (fun p => tokenize (joinSpace (p.1.map Chunk.text))) =
      some ["cccccccccccccccccccccccccccccc".toList, "aa".toList,
            "eeeeeeeeeeeeeeeeeeeeeeeeeeeeee".toList] ∧
     tokenize (punctToSpace
        "cccccccccccccccccccccccccccccc aab aa eeeeeeeeeeeeeeeeeeeeeeeeeeeeee".toList) ≠
      ["cccccccccccccccccccccccccccccc".toList, "aa".toList,
       "eeeeeeeeeeeeeeeeeeeeeeeeeeeeee".toList]) := by
  refine ⟨⟨by decide, by decide⟩, ⟨by decide, by decide⟩⟩

/-- **C7, amended.**  Restricted round-trip: on a narration that decomposes
into sentences of at most 30 characters (so no span break occurs), each
exactly the concatenation of its words' texts separated by whitespace,
each lasting at least 0.5 s, joined by single `\s*[.!?]\s*` delimiters
(the last sentence optionally followed by one trailing delimiter), the run
consumes every word, the cue texts are exactly the sentence texts in order,
and the cue texts joined with single spaces agree with the narration after
whitespace normalization once the consumed `[.!?]` delimiters are blanked
(they are destroyed by the split and are unrecoverable — see the
counterexample). -/
theorem C7_amended_roundtrip_good_text (text : List Char)
    (items : List (List Char × List Word))
    (hG : GoodText text items) (hne : items ≠ []) :
    ∃ cs : List Chunk,
      chunkText text ((items.map Prod.snd).join) = some (cs, []) ∧
      cs.map Chunk.text = items.map Prod.fst ∧
      tokenize (joinSpace (cs.map Chunk.text)) = tokenize (punctToSpace text) := by
  obtain ⟨cs, hrun, htexts⟩ := chunkText_goodText text items hG hne
  refine ⟨cs, hrun, htexts, ?_⟩
  rw [htexts]
  exact joinSpace_tokenize_goodText items text hG hne

/-- Witness for the amended C7 on the spec's own scenario: two good
sentences, every hypothesis discharged on concrete input. -/
theorem C7_amended_witness :
    ∃ cs : List Chunk,
      chunkText "Hello world. Goodbye now.".toList
        [⟨"Hello".toList, 0, mkRat 2 5⟩, ⟨"world".toList, mkRat 2 5, mkRat 9 10⟩,
         ⟨"Goodbye".toList, 1, mkRat 8 5⟩, ⟨"now".toList, mkRat 8 5, mkRat 19 10⟩] =
        some (cs, []) ∧
      cs.map Chunk.text = ["Hello world".toList, "Goodbye now".toList] ∧
      tokenize (joinSpace (cs.map Chunk.text)) =
        tokenize (punctToSpace "Hello world. Goodbye now.".toList) := by
  have hmd1 : MinDur [⟨"Hello".toList, 0, mkRat 2 5⟩,
      ⟨"world".toList, mkRat 2 5, mkRat 9 10⟩] := by
    unfold MinDur
    decide
  have hmd2 : MinDur [⟨"Goodbye".toList, 1, mkRat 8 5⟩,
      ⟨"now".toList, mkRat 8 5, mkRat 19 10⟩] := by
    unfold MinDur
    decide
  have h := C7_amended_roundtrip_good_text "Hello world. Goodbye now.".toList
    [("Hello world".toList,
       [⟨"Hello".toList, 0, mkRat 2 5⟩, ⟨"world".toList, mkRat 2 5, mkRat 9 10⟩]),
     ("Goodbye now".toList,
       [⟨"Goodbye".toList, 1, mkRat 8 5⟩, ⟨"now".toList, mkRat 8 5, mkRat 19 10⟩])]
    ⟨⟨⟨⟨by decide, by decide⟩, [' '], "world".toList, by decide, by decide,
        ⟨by decide, by decide, by decide⟩⟩,
      by decide, hmd1⟩,
     ['.', ' '], "Goodbye now.".toList,
     ⟨[], '.', [' '], by decide, by decide, by decide, by decide⟩,
     by decide,
     ⟨⟨⟨⟨by decide, by decide⟩, [' '], "now".toList, by decide, by decide,
         ⟨by decide, by decide, by decide⟩⟩,
       by decide, hmd2⟩,
      Or.inr ⟨['.'], ⟨[], '.', [], by decide, by decide, by decide, by decide⟩,
        by decide⟩⟩⟩
    (List.cons_ne_nil _ _)
  exact h

/-! ### Claim C8, counterexample -/

/-- **C8, counterexample.**  The claim says no two words are ever bound to
the same occurrence.  On the one-sentence narration `"c*29 ++ aa aa"` with
words `{aa, 0, 0.3}` and `{aa, 0.3, 0.6}`, the first `aa` matches at
position 29 and triggers the length-overflow branch, which resets the
search cursor to the match *start* (29); the second `aa` then also binds at
29: the run's consumed words carry match positions `[29, 29]`. -/
theorem C8_counterexample_same_occurrence :
    (chunkSentenceI "cccccccccccccccccccccccccccccaa aa".toList
        [⟨"aa".toList, 0, mkRat 3 10⟩, ⟨"aa".toList, mkRat 3 10, mkRat 3 5⟩]).map
      (fun p => ((p.1.map IChunk.contribs).join.map Prod.snd, p.2)) =
      some ([29, 29], []) ∧
    ¬ List.Pairwise (fun a b => a ≠ b) ([29, 29] : List Nat) := by
  refine ⟨by decide, by decide⟩

end Shorts
